import Mathlib

/-!
Verification development for the CrowdDetox pass (src/CrowdDetox.cpp).

The pass operates on Hex-Rays ctree items.  We embed the ctree as a tree of
nodes carrying the data the pass consults: the operation tag `op`, the item
identity (C++ works with item pointers; we use a numeric id, assumed unique
in well-formed trees), the goto-label number `label` (-1 = unlabeled), the
effective address `ea`, and per-kind payloads: the variable index for
`cot_var`, the goto destination for `cit_goto`, the result of `print1` for
`cot_helper` (`none` models rendering failure), and the rendered type string
for `cot_var` (`none` models `print_type_to_one_line` failure).

Child conventions (fixed positional layout of the ctree sub-items):
  * `cit_block`  : the list of statements of the block
  * `cit_if`     : [cond-expr, then-branch] or [cond-expr, then, else]
  * `cit_for`    : [init-expr, cond-expr, step-expr, body]
  * `cit_while`  : [cond-expr, body]
  * `cit_do`     : [cond-expr, body]
  * `cit_return` : [expr]
  * `cit_expr`   : [expr]
  * `cot_call`   : callee :: arguments
  * other expression kinds: their sub-expressions
  * `cit_goto`, `cit_break`, `cit_continue`, `cit_empty`, `cit_asm`,
    `cot_empty`, `cot_var`, `cot_obj`, `cot_helper`: no children

External capabilities (spec section 6) are passed as parameters: the
`tag_remove` markup stripper is a `String → String` argument; `print1` and
`print_type_to_one_line` results are carried on the nodes as `Option String`.
-/

inductive ItemOp : Type where
  | cit_block | cit_if | cit_for | cit_while | cit_do | cit_return
  | cit_goto | cit_break | cit_continue | cit_expr | cit_empty | cit_asm
  | cot_call | cot_helper | cot_var | cot_obj | cot_empty | cot_other
deriving DecidableEq, Repr

structure NodeInfo : Type where
  id : Nat
  op : ItemOp
  label : Int := -1
  ea : Nat := 0
  varIdx : Nat := 0
  target : Int := -1
  printed : Option String := none
  typeStr : Option String := none
deriving DecidableEq, Repr

inductive Item : Type where
  | node : NodeInfo → List Item → Item

def Item.info : Item → NodeInfo
  | .node d _ => d

def Item.children : Item → List Item
  | .node _ cs => cs

mutual

def Item.size : Item → Nat
  | .node _ cs => 1 + Item.sizeList cs

def Item.sizeList : List Item → Nat
  | [] => 0
  | c :: cs => Item.size c + Item.sizeList cs

end

mutual

/-- Preorder list of all items of the subtree rooted at an item (the item
itself first, then the children subtrees in order); this is the visitation
order of the Hex-Rays `apply_to` traversal. -/
def Item.subItems : Item → List Item
  | .node d cs => .node d cs :: Item.subItemsList cs

def Item.subItemsList : List Item → List Item
  | [] => []
  | c :: cs => Item.subItems c ++ Item.subItemsList cs

end

def Item.idList (t : Item) : List Nat :=
  t.subItems.map (fun x => x.info.id)

/-- Number of `cit_goto` items in the subtree. -/
def Item.gotoCount (t : Item) : Nat :=
  (t.subItems.filter (fun x => x.info.op = .cit_goto)).length

mutual

/-- Path from the root down to the item with the given id (root first,
target last).  This realizes the `find_parent_of` capability: the parent of
an item is the predecessor of the item on this path. -/
def Item.findPath : Item → Nat → Option (List Item)
  | .node d cs, tid =>
    if d.id = tid then some [.node d cs]
    else
      match Item.findPathList cs tid with
      | some p => some (.node d cs :: p)
      | none => none

def Item.findPathList : List Item → Nat → Option (List Item)
  | [], _ => none
  | c :: cs, tid =>
    match Item.findPath c tid with
    | some p => some p
    | none => Item.findPathList cs tid

end

/-- The chain `pItem, find_parent_of(pItem), ...` up to the root, as iterated
by the marking walk (lines 487-489) and the relocation walk (lines 857-867).
If the item does not occur in the tree the chain degenerates to the item
alone (in the program the visited item is always in the tree). -/
def ancestorsOf (root : Item) (it : Item) : List Item :=
  ((root.findPath it.info.id).map List.reverse).getD [it]

def findById (t : Item) (i : Nat) : Option Item :=
  t.subItems.find? (fun x => x.info.id = i)

mutual

/-- Structure-preserving per-node rewrite of every `NodeInfo` in the tree. -/
def mapInfo (f : NodeInfo → NodeInfo) : Item → Item
  | .node d cs => .node (f d) (mapInfoList f cs)

def mapInfoList (f : NodeInfo → NodeInfo) : List Item → List Item
  | [] => []
  | c :: cs => mapInfo f c :: mapInfoList f cs

end

theorem size_pos (t : Item) : 0 < t.size := by
  cases t with
  | node d cs => simp [Item.size]

theorem sizeList_eq_sum (cs : List Item) :
    Item.sizeList cs = (cs.map Item.size).sum := by
  induction cs with
  | nil => simp [Item.sizeList]
  | cons c cs ih => simp [Item.sizeList, ih]

theorem size_lt_of_mem {c : Item} {cs : List Item} (h : c ∈ cs) :
    c.size < Item.sizeList cs + 1 := by
  induction cs with
  | nil => cases h
  | cons x xs ih =>
    rcases List.mem_cons.mp h with rfl | h2
    · simp [Item.sizeList]; omega
    · have := ih h2
      simp [Item.sizeList]
      have := size_pos x
      omega

/-- Strong induction over `Item` through the nested list of children. -/
theorem Item.strongInduction (P : Item → Prop)
    (h : ∀ d cs, (∀ c ∈ cs, P c) → P (.node d cs)) : ∀ t, P t := by
  have key : ∀ n t, Item.size t ≤ n → P t := by
    intro n
    induction n with
    | zero => intro t hle; have := size_pos t; omega
    | succ n ih =>
      intro t hle
      cases t with
      | node d cs =>
        apply h
        intro c hc
        apply ih
        have h1 := size_lt_of_mem hc
        simp only [Item.size] at hle
        omega
  intro t
  exact key t.size t le_rfl

/-!
## Call Classifier (`FIND_LEGIT_ITEMS_VISITOR::IsLegitimateCall`, lines 91-246)
-/

/-- The deny-list `aszNonLegitHelpers` of IDA defs.h macro names
(lines 102-188), in source order. -/
def aszNonLegitHelpers : List String :=
  ["__ROL__", "__ROL1__", "__ROL2__", "__ROL4__", "__ROL8__",
   "__ROR1__", "__ROR2__", "__ROR4__", "__ROR8__",
   "LOBYTE", "LOWORD", "LODWORD", "HIBYTE", "HIWORD", "HIDWORD",
   "BYTEn", "WORDn",
   "BYTE1", "BYTE2", "BYTE3", "BYTE4", "BYTE5", "BYTE6", "BYTE7", "BYTE8",
   "BYTE9", "BYTE10", "BYTE11", "BYTE12", "BYTE13", "BYTE14", "BYTE15",
   "WORD1", "WORD2", "WORD3", "WORD4", "WORD5", "WORD6", "WORD7",
   "SLOBYTE", "SLOWORD", "SLODWORD", "SHIBYTE", "SHIWORD", "SHIDWORD",
   "SBYTEn", "SWORDn",
   "SBYTE1", "SBYTE2", "SBYTE3", "SBYTE4", "SBYTE5", "SBYTE6", "SBYTE7",
   "SBYTE8", "SBYTE9", "SBYTE10", "SBYTE11", "SBYTE12", "SBYTE13",
   "SBYTE14", "SBYTE15",
   "SWORD1", "SWORD2", "SWORD3", "SWORD4", "SWORD5", "SWORD6", "SWORD7",
   "__CFSHL__", "__CFSHR__", "__CFADD__", "__CFSUB__", "__OFADD__",
   "__OFSUB__", "__RCL__", "__RCR__", "__MKCRCL__", "__MKCRCR__",
   "__SETP__", "__MKCSHL__", "__MKCSHR__", "__SETS__", "__ROR__"]

/-- `IsLegitimateCall` (lines 91-246).  `tr` is the external `tag_remove`
capability.  A non-call expression yields `false` (lines 193-196).  The
callee is `pExpression->x`, the first sub-item of the call; a call item
always carries its callee, so the defensive `false` for a childless call
never fires on well-formed trees.  A callee that is not a `cot_helper` makes
the call legitimate (lines 207-210).  Otherwise the helper name is rendered
with `print1` (failure => `false`, lines 215-221), `tag_remove`d, and
compared against the deny-list (lines 233-239); any other name is
legitimate (line 245). -/
def IsLegitimateCall (tr : String → String) (e : Item) : Bool :=
  if e.info.op ≠ .cot_call then
    false
  else
    match e.children.head? with
    | none => false
    | some callee =>
      if callee.info.op ≠ .cot_helper then
        true
      else
        match callee.info.printed with
        | none => false
        | some s =>
          if aszNonLegitHelpers.contains (tr s) then false else true

/-!
## Legitimacy Marker (`FIND_LEGIT_ITEMS_VISITOR`, lines 53-632)

The visitor state: `legit` is `vectorLegitItems` (item ids), `varLegit` is
the `afVariableIsLegit` array, `descMarked` is `vectorDescendantsMarkedLegit`
(it lives on the visitor and is never cleared, so it persists across the
passes of the outer fixed-point loop), `newFound` is `fNewLegitItemFound`.
-/

structure MarkState : Type where
  legit : List Nat
  varLegit : List Bool
  descMarked : List Nat
  newFound : Bool
deriving Repr

/-- One visit in Marking-Descendants mode (`fMarkingDescendantsLegit`,
lines 316-355): skip items already descended through; mark the variable of a
`cot_var`; add the item to the legitimacy set (recording that a new item was
found); remember the item in `descMarked`. -/
def markDescVisit (st : MarkState) (d : NodeInfo) : MarkState :=
  if st.descMarked.contains d.id then
    st
  else
    let st1 :=
      if d.op = .cot_var then
        { st with varLegit := st.varLegit.set d.varIdx true }
      else st
    let st2 :=
      if st1.legit.contains d.id then st1
      else { st1 with legit := st1.legit ++ [d.id], newFound := true }
    { st2 with descMarked := st2.descMarked ++ [d.id] }

/-- `apply_to` of a subtree with `fMarkingDescendantsLegit = true`: the
preorder fold of `markDescVisit` over the subtree (this mode never stops the
traversal). -/
def markDescendants (st : MarkState) (it : Item) : MarkState :=
  it.subItems.foldl (fun s x => markDescVisit s x.info) st

/-- The expression part of an already-legitimate statement (the `switch` at
lines 368-382): the condition of `cit_if`/`cit_while`/`cit_do`, the `expr`
of a `cit_for`, the returned expression of `cit_return`; `none` otherwise. -/
def govExpr (it : Item) : Option Item :=
  match it.info.op with
  | .cit_if => it.children.head?
  | .cit_while => it.children.head?
  | .cit_do => it.children.head?
  | .cit_return => it.children.head?
  | .cit_for => it.children.get? 1
  | _ => none

/-- The `for`-loop initialization expression (`cfor->init`, line 413). -/
def forInit (it : Item) : Option Item :=
  match it.info.op with
  | .cit_for => it.children.head?
  | _ => none

/-- The `for`-loop step expression (`cfor->step`, line 429). -/
def forStep (it : Item) : Option Item :=
  match it.info.op with
  | .cit_for => it.children.get? 2
  | _ => none

/-- The immediate-legitimacy candidate test of Scanning mode
(lines 453-481), transcribed with the source's exact boolean structure.
For a `cot_var` (lines 453-470) the item falls through to the ancestor walk
iff the variable is already legitimate, or its type renders (`typeStr`) to
exactly "CPPEH_RECORD".  For everything else the source guards the walk with
`if (!(obj || legit-call || goto || break || continue || return) ||
(op == cit_asm)) return 0;` — note that `(op == cit_asm)` sits outside the
negation (lines 471-478). -/
def scanCandidate (tr : String → String) (st : MarkState) (it : Item) : Bool :=
  if it.info.op = .cot_var then
    st.varLegit.getD it.info.varIdx false ||
      (match it.info.typeStr with
       | none => false
       | some s => s = "CPPEH_RECORD")
  else
    !(!(decide (it.info.op = .cot_obj) ||
        (decide (it.info.op = .cot_call) && IsLegitimateCall tr it) ||
        decide (it.info.op = .cit_goto) ||
        decide (it.info.op = .cit_break) ||
        decide (it.info.op = .cit_continue) ||
        decide (it.info.op = .cit_return)) ||
      decide (it.info.op = .cit_asm))

/-- One step of the ancestor walk (lines 487-520): add the current ancestor
to the legitimacy set; if it is a `cit_expr` statement, a legitimate
`cot_call`, or a `cit_return`, flood-mark its subtree unless it was already
descended through. -/
def walkStep (tr : String → String) (st : MarkState) (cur : Item) : MarkState :=
  let st1 :=
    if st.legit.contains cur.info.id then st
    else { st with legit := st.legit ++ [cur.info.id], newFound := true }
  if decide (cur.info.op = .cit_expr) ||
      (decide (cur.info.op = .cot_call) && IsLegitimateCall tr cur) ||
      decide (cur.info.op = .cit_return) then
    if st1.descMarked.contains cur.info.id then st1
    else markDescendants st1 cur
  else st1

/-- Flood-mark the subtree of an optional expression unless it was already
descended through (the guarded `apply_to` calls at lines 411-440). -/
def floodIfNew (st : MarkState) (eo : Option Item) : MarkState :=
  match eo with
  | none => st
  | some e =>
    if st.descMarked.contains e.info.id then st
    else markDescendants st e

/-- Re-visit of an already-legitimate item (lines 360-445): flood-mark its
governing expression unless already descended through, and — inside that
guard, exactly as in the source — for a `cit_for` also the init and step
expressions, each under its own guard. -/
def legitRevisit (st : MarkState) (it : Item) : MarkState :=
  match govExpr it with
  | none => st
  | some e =>
    if st.descMarked.contains e.info.id then st
    else if it.info.op = .cit_for then
      floodIfNew (floodIfNew (markDescendants st e) (forInit it)) (forStep it)
    else markDescendants st e

/-- Scanning-mode visit of one item (`visit_item`, lines 293-523, with
`fMarkingDescendantsLegit` false and the visitor initialized).  If the item
is already legitimate, re-process its governing expressions; otherwise, if
the item passes the candidate test, walk the ancestor chain up to the
root. -/
def scanVisit (tr : String → String) (root : Item) (st : MarkState)
    (it : Item) : MarkState :=
  if st.legit.contains it.info.id then
    legitRevisit st it
  else if scanCandidate tr st it then
    (ancestorsOf root it).foldl (walkStep tr) st
  else st

/-- One full traversal of the function body (one iteration of the do-while
loop at lines 626-632): `apply_to(&pFunction->body, NULL)` visits every item
of the tree in preorder, in Scanning mode. -/
def markPass (tr : String → String) (root : Item) (st : MarkState) : MarkState :=
  root.subItems.foldl (scanVisit tr root) st

/-- The marking fixed-point loop (lines 626-632): clear `fNewLegitItemFound`,
run a full pass, repeat while the pass found a new legitimate item.  `fuel`
bounds the number of passes; when it runs out the current state is returned
(with `newFound = true`, marking non-convergence). -/
def markLoop (tr : String → String) (root : Item) : Nat → MarkState → MarkState
  | 0, st => st
  | fuel + 1, st =>
    if (markPass tr root { st with newFound := false }).newFound then
      markLoop tr root fuel (markPass tr root { st with newFound := false })
    else
      markPass tr root { st with newFound := false }

/-- Initial marker state: `afVariableIsLegit[i] = pVariables->at(i).is_arg_var()`
(lines 578-581). -/
def initMarkState (isArg : List Bool) : MarkState :=
  { legit := [], varLegit := isArg, descMarked := [], newFound := false }

/-!
## Pruner (`PRUNE_ITEMS_VISITOR`, lines 639-1054)
-/

/-- The kinds that Pruning mode never cleans up and never descends into
(lines 779-793): `cit_break`, `cit_continue`, `cit_goto`, `cit_empty`,
`cot_empty`, `cit_asm`, `cit_return`. -/
def sevenKind : ItemOp → Bool
  | .cit_break | .cit_continue | .cit_goto | .cit_empty | .cot_empty
  | .cit_asm | .cit_return => true
  | _ => false

/-- `citem_t::is_expr()`: the expression operation tags. -/
def isExprOp : ItemOp → Bool
  | .cot_call | .cot_helper | .cot_var | .cot_obj | .cot_empty
  | .cot_other => true
  | _ => false

/-- Empty items erased from blocks (lines 763-764). -/
def emptyKind (op : ItemOp) : Bool :=
  decide (op = .cit_empty) || decide (op = .cot_empty)

/-- The statement kinds that can reach Pruning mode's cleanup branch
(everything that is not a block, not one of the seven skipped kinds, and not
an expression): `cit_if`, `cit_for`, `cit_while`, `cit_do`, `cit_expr`. -/
def doomedKind : ItemOp → Bool
  | .cit_if | .cit_for | .cit_while | .cit_do | .cit_expr => true
  | _ => false

/-- The mutating step a Pruning-mode pass decides on: erase the (first)
empty child `childId` from the block `blockId` (lines 755-773), or clean up
the non-legitimate statement `stmtId` (lines 796-832). -/
inductive PruneAction : Type where
  | eraseEmpty (blockId : Nat) (childId : Nat)
  | cleanupStmt (stmtId : Nat)
deriving DecidableEq, Repr

mutual

/-- The decision taken by one Pruning-mode traversal (`visit_item`,
lines 750-833), as the first mutation point reached in preorder.  Per item:
a `cit_block` erases its first empty child if any, otherwise the traversal
descends; the seven protected kinds return without descending
(`prune_now()`, line 790); a legitimate item is kept and descended; an
expression is never a cleanup target and is descended; any other statement
is the cleanup target and the traversal stops. -/
def findPruneAction (legit : List Nat) : Item → Option PruneAction
  | .node d cs =>
    if d.op = .cit_block then
      match cs.find? (fun c => emptyKind c.info.op) with
      | some c => some (.eraseEmpty d.id c.info.id)
      | none => findPruneActionList legit cs
    else if sevenKind d.op then none
    else if legit.contains d.id then findPruneActionList legit cs
    else if isExprOp d.op then findPruneActionList legit cs
    else some (.cleanupStmt d.id)

def findPruneActionList (legit : List Nat) : List Item → Option PruneAction
  | [] => none
  | c :: cs =>
    match findPruneAction legit c with
    | some a => some a
    | none => findPruneActionList legit cs

end

/-!
### Goto-label relocation (CleaningUpGotoLabels / ChangingGotos /
FindingChildrenOfParent modes, lines 838-1013)
-/

/-- The outcome the CleaningUpGotoLabels visit computes for one labeled
item: move its label onto the carrier item `carrierId` (lines 947-954),
redirect all gotos from the old label to the carrier's existing label
(lines 929-944), or — when no ancestor block yields a carrier — convert all
gotos that target the old label into returns (lines 869-889). -/
inductive RelocOutcome : Type where
  | moveLabel (carrierId : Nat) (label : Int)
  | redirectGotos (oldLabel newLabel : Int)
  | convertGotos (oldLabel : Int)
deriving DecidableEq, Repr

/-- One iteration of the carrier-selection loop at lines 904-919: skip a
child whose `ea` is not strictly greater than the labeled item's `ea`;
otherwise take it when it beats the best candidate so far (`pNewDestination`
is NULL, or the child's `ea` is strictly smaller). -/
def selectStep (ea : Nat) (acc : Option Item) (c : Item) : Option Item :=
  if c.info.ea > ea then
    match acc with
    | none => some c
    | some b => if c.info.ea < b.info.ea then some c else acc
  else acc

/-- Selection of the new label carrier among the direct children of a
parent block (lines 904-919): among the children whose `ea` is strictly
greater than the labeled item's `ea`, keep the one with the smallest `ea`
(the first such child in visitation order wins ties). -/
def selectDest (ea : Nat) (cs : List Item) : Option Item :=
  cs.foldl (selectStep ea) none

/-- The proper-ancestor blocks of an item, nearest first: the `cit_block`
items among `find_parent_of(pItem), find_parent_of(...), ...`
(lines 857-867). -/
def ancestorBlocks (root : Item) (it : Item) : List Item :=
  ((ancestorsOf root it).drop 1).filter (fun x => x.info.op = .cit_block)

/-- The `while (pNewDestination == NULL)` loop (lines 857-920): walk up the
ancestor blocks, nearest first, and stop at the first block one of whose
children lies at a strictly greater address than the labeled item. -/
def findNewDestination (root : Item) (it : Item) : Option Item :=
  (ancestorBlocks root it).findSome? (fun b => selectDest it.info.ea b.children)

/-- The relocation decision for one labeled item `L` (lines 838-954):
no destination => convert the gotos targeting `L`'s label to returns;
a destination that already carries a label => redirect the gotos;
otherwise move `L`'s label onto the destination. -/
def relocOutcome (root : Item) (L : Item) : RelocOutcome :=
  match findNewDestination root L with
  | none => .convertGotos L.info.label
  | some dest =>
    if dest.info.label ≠ -1 then .redirectGotos L.info.label dest.info.label
    else .moveLabel dest.info.id L.info.label

/-- Apply `moveLabel`: `pNewDestination->label_num = pItem->label_num;
pItem->label_num = -1` (lines 949-950). -/
def applyMove (root : Item) (labeledId carrierId : Nat) (lbl : Int) : Item :=
  mapInfo
    (fun d =>
      if d.id = carrierId then { d with label := lbl }
      else if d.id = labeledId then { d with label := -1 }
      else d)
    root

/-- ChangingGotos mode with a new label (lines 984-997): every `cit_goto`
whose destination is `old` is retargeted to `new`. -/
def redirectGotos (root : Item) (old new : Int) : Item :=
  mapInfo
    (fun d =>
      if d.op = .cit_goto ∧ d.target = old then { d with target := new }
      else d)
    root

mutual

/-- ChangingGotos mode with `nNewLabelNumber == -1` (lines 999-1012): every
`cit_goto` whose destination is `old` is replaced in place by a freshly
constructed bare `cit_return` that keeps the goto's address and label number
(lines 1002-1010).  The fresh `creturn_t` carries a `cot_empty` expression
item, which needs a fresh identity: `base` threads the next unused id. -/
def convertGotos (old : Int) : Item → Nat → Item × Nat
  | .node d cs, base =>
    if d.op = .cit_goto ∧ d.target = old then
      (.node { d with op := .cit_return, target := -1 }
        [.node { id := base, op := .cot_empty, ea := d.ea } []], base + 1)
    else
      let r := convertGotosList old cs base
      (.node d r.1, r.2)

def convertGotosList (old : Int) : List Item → Nat → List Item × Nat
  | [], base => ([], base)
  | c :: cs, base =>
    let r1 := convertGotos old c base
    let r2 := convertGotosList old cs r1.2
    (r1.1 :: r2.1, r2.2)

end

def Item.maxId (t : Item) : Nat := t.idList.foldl Nat.max 0

/-- One iteration body of `while (fGotoCleaned)` (lines 815-823) in
CleaningUpGotoLabels mode, operating on the doomed subtree (looked up by id
in the current whole tree): find the first labeled item in the subtree
(lines 843-852) and apply its relocation outcome.  After a `moveLabel` the
mode is still CleaningUpGotoLabels and the loop re-scans; after a redirect
or a conversion the visitor leaves `visitingMode == ChangingGotos` (the mode
is not restored, lines 881-888 and 936-943), so the re-scan rewrites no
further labels and the loop exits: the recursion stops there. -/
def cleanupLabels (root : Item) (doomedId : Nat) : Nat → Item
  | 0 => root
  | fuel + 1 =>
    match findById root doomedId with
    | none => root
    | some dsub =>
      match dsub.subItems.find? (fun x => x.info.label ≠ -1) with
      | none => root
      | some L =>
        match relocOutcome root L with
        | .moveLabel cid lbl =>
          cleanupLabels (applyMove root L.info.id cid lbl) doomedId fuel
        | .redirectGotos old new => redirectGotos root old new
        | .convertGotos old => (convertGotos old root (root.maxId + 1)).1

mutual

/-- `pBlock->erase(pIterator)` (lines 766-767): remove the child with id
`childId` from the block with id `blockId`. -/
def eraseChild : Item → Nat → Nat → Item
  | .node d cs, blockId, childId =>
    if d.id = blockId then
      .node d (cs.filter (fun c => c.info.id ≠ childId))
    else
      .node d (eraseChildList cs blockId childId)

def eraseChildList : List Item → Nat → Nat → List Item
  | [], _, _ => []
  | c :: cs, blockId, childId =>
    eraseChild c blockId childId :: eraseChildList cs blockId childId

end

mutual

/-- `((cinsn_t*)pItem)->cleanup()` (line 829): the statement's contents are
freed and the item becomes a `cit_empty` statement (keeping its tree
position; the address is retained in this model, the label is gone). -/
def replaceByEmpty : Item → Nat → Item
  | .node d cs, sid =>
    if d.id = sid then
      .node { id := d.id, op := .cit_empty, ea := d.ea } []
    else
      .node d (replaceByEmptyList cs sid)

def replaceByEmptyList : List Item → Nat → List Item
  | [], _ => []
  | c :: cs, sid => replaceByEmpty c sid :: replaceByEmptyList cs sid

end

/-- Apply the mutation a pruning pass decided on.  For a cleanup the goto
labels under the doomed statement are relocated first (lines 811-824), then
the statement is cleaned up (line 829). -/
def applyPruneAction (labelFuel : Nat) (root : Item) : PruneAction → Item
  | .eraseEmpty bid cid => eraseChild root bid cid
  | .cleanupStmt sid => replaceByEmpty (cleanupLabels root sid labelFuel) sid

/-- One pruning pass (one iteration of the do-while at lines 1048-1054):
the traversal stops at its first mutation (`return 1`), so one pass either
performs the first mutation found in preorder and reports `fPruned = true`,
or changes nothing. -/
def prunePass (legit : List Nat) (labelFuel : Nat) (root : Item) :
    Item × Bool :=
  match findPruneAction legit root with
  | none => (root, false)
  | some a => (applyPruneAction labelFuel root a, true)

/-- The pruning fixed-point loop (lines 1048-1054).  The returned flag is
true when the loop converged (a full pass pruned nothing) within `fuel`
passes. -/
def pruneLoop (legit : List Nat) (labelFuel : Nat) : Nat → Item → Item × Bool
  | 0, root => (root, false)
  | fuel + 1, root =>
    match prunePass legit labelFuel root with
    | (root1, true) => pruneLoop legit labelFuel fuel root1
    | (root1, false) => (root1, true)

/-!
## Variable Finalizer and `Detox` (lines 42-1068)
-/

/-- One function-local variable (`lvar_t`): `is_arg_var()` and the
`CVAR_USED` flag. -/
structure Lvar : Type where
  isArg : Bool
  used : Bool
deriving DecidableEq, Repr

/-- The finalizer sweep (lines 1060-1067): `clear_used()` on every variable
whose `afVariableIsLegit` entry is false. -/
def finalizeVars : List Lvar → List Bool → List Lvar
  | [], _ => []
  | v :: vs, bm =>
    (if bm.headD false then v else { v with used := false }) ::
      finalizeVars vs bm.tail

/-- The whole marking phase: the state after the marking fixed-point loop,
run with enough fuel for the loop to converge (`size + 1` passes always
suffice for trees with distinct item ids). -/
def detoxMark (tr : String → String) (root : Item) (vars : List Lvar) :
    MarkState :=
  markLoop tr root (root.size + 1) (initMarkState (vars.map (fun v => v.isArg)))

/-- Label-relocation fuel used by `Detox`: enough for any relocation loop. -/
def detoxLabelFuel (root : Item) : Nat := root.size * root.size + 1

/-- Number of items whose kind can make them a Pruning-mode cleanup target
(`cit_if`, `cit_for`, `cit_while`, `cit_do`, `cit_expr`). -/
def Item.doomedCount (t : Item) : Nat :=
  (t.subItems.filter (fun x => doomedKind x.info.op)).length

/-- Pruning-loop fuel used by `Detox`: the convergence bound proved below. -/
def detoxPruneFuel (root : Item) : Nat :=
  root.size + root.gotoCount + root.doomedCount + 1

/-- `Detox` (lines 42-1068).  `allocFail` models `malloc` returning NULL in
`FIND_LEGIT_ITEMS_VISITOR::Initialize` (lines 564-572): the first visit then
returns 1, the marking traversal stops with no legitimate item recorded and
a NULL `afVariableIsLegit`, and `Detox` — which never checks for the
failure — continues into the pruning loop with the empty legitimacy vector
and then into the finalizer sweep, where `fliv.afVariableIsLegit[i]`
dereferences the NULL array (line 1063): the variable outcome is undefined,
modeled as `none`.  On success the result carries the pruned tree and the
finalized variable list. -/
def Detox (tr : String → String) (allocFail : Bool) (root : Item)
    (vars : List Lvar) : Item × Option (List Lvar) :=
  if allocFail then
    ((pruneLoop [] (detoxLabelFuel root) (detoxPruneFuel root) root).1, none)
  else
    let st := detoxMark tr root vars
    ((pruneLoop st.legit (detoxLabelFuel root) (detoxPruneFuel root) root).1,
      some (finalizeVars vars st.varLegit))

/-!
## Basic tree lemmas
-/

theorem subItems_node (d : NodeInfo) (cs : List Item) :
    (Item.node d cs).subItems = .node d cs :: Item.subItemsList cs := rfl

theorem self_mem_subItems (t : Item) : t ∈ t.subItems := by
  cases t with
  | node d cs => simp [Item.subItems]

theorem mem_subItemsList {x : Item} {cs : List Item} :
    x ∈ Item.subItemsList cs ↔ ∃ c ∈ cs, x ∈ c.subItems := by
  induction cs with
  | nil => simp [Item.subItemsList]
  | cons c cs ih =>
    simp only [Item.subItemsList, List.mem_append, ih, List.mem_cons]
    constructor
    · rintro (h | ⟨c2, hc2, hx⟩)
      · exact ⟨c, Or.inl rfl, h⟩
      · exact ⟨c2, Or.inr hc2, hx⟩
    · rintro ⟨c2, (rfl | hc2), hx⟩
      · exact Or.inl hx
      · exact Or.inr ⟨c2, hc2, hx⟩

theorem mem_subItems_trans {x c t : Item} (hc : c ∈ t.children)
    (hx : x ∈ c.subItems) : x ∈ t.subItems := by
  cases t with
  | node d cs =>
    simp [Item.subItems]
    right
    exact mem_subItemsList.mpr ⟨c, hc, hx⟩

theorem subItems_sub {c t : Item} (hc : c ∈ t.children) :
    c.subItems ⊆ t.subItems :=
  fun _ hx => mem_subItems_trans hc hx

theorem length_subItemsList_of (cs : List Item)
    (h : ∀ c ∈ cs, c.subItems.length = c.size) :
    (Item.subItemsList cs).length = Item.sizeList cs := by
  induction cs with
  | nil => simp [Item.subItemsList, Item.sizeList]
  | cons c cs ih =>
    simp only [Item.subItemsList, Item.sizeList, List.length_append]
    rw [h c (by simp), ih (fun c hc => h c (by simp [hc]))]

theorem length_subItems (t : Item) : t.subItems.length = t.size := by
  induction t using Item.strongInduction with
  | _ d cs ih =>
    simp only [subItems_node, List.length_cons, Item.size]
    rw [length_subItemsList_of cs ih]
    omega

theorem length_idList (t : Item) : t.idList.length = t.size := by
  simp [Item.idList, length_subItems]

/-- Counting helpers over a list of sibling subtrees. -/
def countList (p : Item → Bool) (cs : List Item) : Nat :=
  ((Item.subItemsList cs).filter p).length

def Item.countP (p : Item → Bool) (t : Item) : Nat :=
  (t.subItems.filter p).length

theorem countList_nil (p : Item → Bool) : countList p [] = 0 := by
  simp [countList, Item.subItemsList]

theorem countList_cons (p : Item → Bool) (c : Item) (cs : List Item) :
    countList p (c :: cs) = c.countP p + countList p cs := by
  simp [countList, Item.countP, Item.subItemsList, List.filter_append]

theorem countP_node (p : Item → Bool) (d : NodeInfo) (cs : List Item) :
    (Item.node d cs).countP p =
      (if p (.node d cs) then 1 else 0) + countList p cs := by
  simp [Item.countP, countList, Item.subItems, List.filter_cons]
  split <;> simp <;> omega

theorem gotoCount_eq_countP (t : Item) :
    t.gotoCount = t.countP (fun x => x.info.op = .cit_goto) := by
  simp [Item.gotoCount, Item.countP]

theorem doomedCount_eq_countP (t : Item) :
    t.doomedCount = t.countP (fun x => doomedKind x.info.op) := by
  simp [Item.doomedCount, Item.countP]

/-!
## Monotone evolution of the marker state

`MarkLe ids st st1` records how one marking step evolves the visitor state:
the legitimacy set only grows (and any id added comes from `ids`, stays
duplicate-free, and flips `fNewLegitItemFound` only together with an actual
growth), and the variable bitmap entries only go from false to true.
-/

theorem getD_set_mono (l : List Bool) (k i : Nat)
    (h : l.getD i false = true) : (l.set k true).getD i false = true := by
  by_cases hik : k = i
  · subst hik
    by_cases hk : k < l.length
    · simp [List.getD_eq_getElem?_getD, List.getElem?_set_self, hk]
    · have hnone : l.getD k false = false := by
        simp [List.getD_eq_getElem?_getD,
          List.getElem?_eq_none (by omega : l.length ≤ k)]
      rw [hnone] at h
      cases h
  · rw [List.getD_eq_getElem?_getD, List.getElem?_set_ne hik,
      ← List.getD_eq_getElem?_getD]
    exact h

theorem nodup_push {l : List Nat} {a : Nat} (h : l.Nodup) (hn : a ∉ l) :
    (l ++ [a]).Nodup := by
  simp [List.nodup_append]
  exact ⟨h, hn⟩

theorem length_le_of_nodup_subset {l L : List Nat} (h1 : l.Nodup)
    (h2 : ∀ x ∈ l, x ∈ L) (h3 : L.Nodup) : l.length ≤ L.length := by
  classical
  have e1 := List.toFinset_card_of_nodup h1
  have e2 := List.toFinset_card_of_nodup h3
  have hsub : l.toFinset ⊆ L.toFinset := by
    intro x hx
    simp only [List.mem_toFinset] at hx ⊢
    exact h2 x hx
  have := Finset.card_le_card hsub
  omega

structure MarkLe (ids : List Nat) (st st1 : MarkState) : Prop where
  legitSub : st.legit ⊆ st1.legit
  legitLen : st.legit.length ≤ st1.legit.length
  varMono : ∀ i, st.varLegit.getD i false = true →
    st1.varLegit.getD i false = true
  varLen : st1.varLegit.length = st.varLegit.length
  foundStep : st1.newFound = st.newFound ∨
    (st1.newFound = true ∧ st.legit.length < st1.legit.length)
  keepNodup : st.legit.Nodup → st1.legit.Nodup
  fresh : ∀ x ∈ st1.legit, x ∈ st.legit ∨ x ∈ ids

theorem MarkLe.refl (ids : List Nat) (st : MarkState) : MarkLe ids st st :=
  ⟨fun _ h => h, le_rfl, fun _ h => h, rfl, Or.inl rfl, fun h => h,
    fun _ h => Or.inl h⟩

theorem MarkLe.trans {ids : List Nat} {st st1 st2 : MarkState}
    (a : MarkLe ids st st1) (b : MarkLe ids st1 st2) : MarkLe ids st st2 := by
  refine ⟨fun x hx => b.legitSub (a.legitSub hx),
    le_trans a.legitLen b.legitLen,
    fun i h => b.varMono i (a.varMono i h),
    b.varLen.trans a.varLen,
    ?_, fun h => b.keepNodup (a.keepNodup h),
    fun x hx => ?_⟩
  · rcases b.foundStep with h2 | h2
    · rcases a.foundStep with h1 | h1
      · exact Or.inl (h2.trans h1)
      · exact Or.inr ⟨h2.trans h1.1, lt_of_lt_of_le h1.2 b.legitLen⟩
    · exact Or.inr ⟨h2.1, lt_of_le_of_lt a.legitLen h2.2⟩
  · rcases b.fresh x hx with h2 | h2
    · exact a.fresh x h2
    · exact Or.inr h2

theorem markDescVisit_le {ids : List Nat} (st : MarkState) (d : NodeInfo)
    (hid : d.id ∈ ids) : MarkLe ids st (markDescVisit st d) := by
  unfold markDescVisit
  by_cases hc : st.descMarked.contains d.id
  · simp only [hc, if_true]
    exact MarkLe.refl ids st
  · simp only [hc, if_false, Bool.false_eq_true]
    set st1 := if d.op = .cot_var then
        { st with varLegit := st.varLegit.set d.varIdx true }
      else st with hst1
    have h1 : MarkLe ids st st1 := by
      rw [hst1]
      split
      · exact ⟨fun _ h => h, le_rfl,
          fun i h => getD_set_mono st.varLegit d.varIdx i h, by simp,
          Or.inl rfl, fun h => h, fun _ h => Or.inl h⟩
      · exact MarkLe.refl ids st
    have hleg1 : st1.legit = st.legit := by rw [hst1]; split <;> rfl
    have hnf1 : st1.newFound = st.newFound := by rw [hst1]; split <;> rfl
    refine MarkLe.trans h1 ?_
    by_cases h2 : st1.legit.contains d.id
    · simp only [h2, if_true]
      exact ⟨fun _ h => h, le_rfl, fun _ h => h, by simp, Or.inl rfl,
        fun h => h, fun _ h => Or.inl h⟩
    · simp only [h2, if_false, Bool.false_eq_true]
      have hnm : d.id ∉ st1.legit := by
        intro hmem
        exact h2 (by simpa using hmem)
      exact ⟨fun x hx => by simp [List.mem_append]; exact Or.inl hx,
        by simp,
        fun _ h => h, by simp, Or.inr ⟨rfl, by simp⟩,
        fun h => nodup_push h hnm,
        fun x hx => by
          rcases List.mem_append.mp hx with h | h
          · exact Or.inl h
          · simp at h
            subst h
            exact Or.inr hid⟩

theorem foldl_markLe {α : Type} {ids : List Nat} (f : MarkState → α → MarkState)
    (l : List α) (h : ∀ st a, a ∈ l → MarkLe ids st (f st a)) :
    ∀ st, MarkLe ids st (l.foldl f st) := by
  induction l with
  | nil => intro st; exact MarkLe.refl ids st
  | cons a l ih =>
    intro st
    simp only [List.foldl_cons]
    exact MarkLe.trans (h st a (by simp))
      (ih (fun st2 b hb => h st2 b (by simp [hb])) (f st a))

theorem markDescendants_le {ids : List Nat} (st : MarkState) (it : Item)
    (h : ∀ x ∈ it.subItems, x.info.id ∈ ids) :
    MarkLe ids st (markDescendants st it) := by
  unfold markDescendants
  exact foldl_markLe _ it.subItems
    (fun st2 x hx => markDescVisit_le st2 x.info (h x hx)) st

theorem walkStep_le {ids : List Nat} (tr : String → String) (st : MarkState)
    (cur : Item) (h : ∀ x ∈ cur.subItems, x.info.id ∈ ids) :
    MarkLe ids st (walkStep tr st cur) := by
  have hid : cur.info.id ∈ ids := h cur (self_mem_subItems cur)
  have hpush : ∀ st2 : MarkState,
      MarkLe ids st2 (if st2.legit.contains cur.info.id then st2
        else
          { st2 with
              legit := st2.legit ++ [cur.info.id], newFound := true }) := by
    intro st2
    split
    · exact MarkLe.refl ids st2
    · rename_i hnc
      have hnm : cur.info.id ∉ st2.legit := by
        intro hmem
        exact hnc (by simpa using hmem)
      exact ⟨fun x hx => by simp [List.mem_append]; exact Or.inl hx,
        by simp, fun _ hv => hv, by simp, Or.inr ⟨rfl, by simp⟩,
        fun hn => nodup_push hn hnm,
        fun x hx => by
          rcases List.mem_append.mp hx with h2 | h2
          · exact Or.inl h2
          · simp at h2
            subst h2
            exact Or.inr hid⟩
  have hflood : ∀ st2 : MarkState,
      MarkLe ids st2 (if st2.descMarked.contains cur.info.id then st2
        else markDescendants st2 cur) := by
    intro st2
    split
    · exact MarkLe.refl ids st2
    · exact markDescendants_le st2 cur h
  simp only [walkStep]
  split
  · exact MarkLe.trans (hpush st) (hflood _)
  · exact hpush st

theorem mem_of_head? {l : List Item} {a : Item} (h : l.head? = some a) :
    a ∈ l := by
  cases l <;> simp_all

theorem govExpr_mem {it e : Item} (h : govExpr it = some e) :
    e ∈ it.children := by
  unfold govExpr at h
  split at h <;> first
    | exact mem_of_head? h
    | exact List.get?_mem h
    | cases h

theorem forInit_mem {it e : Item} (h : forInit it = some e) :
    e ∈ it.children := by
  unfold forInit at h
  split at h <;> first
    | exact mem_of_head? h
    | cases h

theorem forStep_mem {it e : Item} (h : forStep it = some e) :
    e ∈ it.children := by
  unfold forStep at h
  split at h <;> first
    | exact List.get?_mem h
    | cases h

theorem mem_subItems_of_child {c t : Item} (hc : c ∈ t.children) :
    c ∈ t.subItems :=
  mem_subItems_trans hc (self_mem_subItems c)

theorem subItems_trans {root it x : Item} (h1 : it ∈ root.subItems)
    (h2 : x ∈ it.subItems) : x ∈ root.subItems := by
  induction root using Item.strongInduction with
  | _ d cs ih =>
    rw [subItems_node] at h1 ⊢
    rcases List.mem_cons.mp h1 with rfl | h1
    · exact h2
    · rcases mem_subItemsList.mp h1 with ⟨c, hc, hit⟩
      exact List.mem_cons_of_mem _ (mem_subItemsList.mpr ⟨c, hc, ih c hc hit⟩)

theorem mem_idList {root x : Item} (h : x ∈ root.subItems) :
    x.info.id ∈ root.idList :=
  List.mem_map_of_mem _ h

theorem findPathList_mem_of (cs : List Item)
    (h : ∀ c ∈ cs, ∀ tid p, c.findPath tid = some p → ∀ x ∈ p, x ∈ c.subItems) :
    ∀ tid p, Item.findPathList cs tid = some p →
      ∀ x ∈ p, x ∈ Item.subItemsList cs := by
  induction cs with
  | nil => intro tid p hp; simp [Item.findPathList] at hp
  | cons c cs ih =>
    intro tid p hp x hx
    unfold Item.findPathList at hp
    simp only [Item.subItemsList, List.mem_append]
    cases hfp : c.findPath tid with
    | some q =>
      rw [hfp] at hp
      obtain rfl : q = p := by injection hp
      exact Or.inl (h c (by simp) tid q hfp x hx)
    | none =>
      rw [hfp] at hp
      exact Or.inr (ih (fun c2 hc2 => h c2 (by simp [hc2])) tid p hp x hx)

theorem findPath_mem (t : Item) : ∀ tid p, t.findPath tid = some p →
    ∀ x ∈ p, x ∈ t.subItems := by
  induction t using Item.strongInduction with
  | _ d cs ih =>
    intro tid p hp x hx
    unfold Item.findPath at hp
    split at hp
    · cases hp
      simp at hx
      subst hx
      exact self_mem_subItems _
    · cases hfl : Item.findPathList cs tid with
      | none => rw [hfl] at hp; cases hp
      | some q =>
        rw [hfl] at hp
        cases hp
        rcases List.mem_cons.mp hx with rfl | hx2
        · exact self_mem_subItems _
        · rw [subItems_node]
          exact List.mem_cons_of_mem _
            (findPathList_mem_of cs ih tid q hfl x hx2)

theorem ancestorsOf_mem {root it : Item} (hit : it ∈ root.subItems) :
    ∀ x ∈ ancestorsOf root it, x ∈ root.subItems := by
  intro x hx
  unfold ancestorsOf at hx
  cases hfp : root.findPath it.info.id with
  | none =>
    rw [hfp] at hx
    simp at hx
    subst hx
    exact hit
  | some p =>
    rw [hfp] at hx
    simp at hx
    exact findPath_mem root it.info.id p hfp x (List.mem_reverse.mp (by simpa using hx))

theorem floodIfNew_none (st : MarkState) : floodIfNew st none = st := rfl

theorem floodIfNew_some (st : MarkState) (e : Item) :
    floodIfNew st (some e) =
      if st.descMarked.contains e.info.id then st
      else markDescendants st e := rfl

theorem legitRevisit_of_none {it : Item} (st : MarkState)
    (h : govExpr it = none) : legitRevisit st it = st := by
  unfold legitRevisit
  rw [h]

theorem legitRevisit_of_some {it e : Item} (st : MarkState)
    (h : govExpr it = some e) :
    legitRevisit st it =
      if st.descMarked.contains e.info.id then st
      else if it.info.op = .cit_for then
        floodIfNew (floodIfNew (markDescendants st e) (forInit it)) (forStep it)
      else markDescendants st e := by
  unfold legitRevisit
  rw [h]

theorem floodIfNew_le {ids : List Nat} (st : MarkState)
    (eo : Option Item)
    (hmem : ∀ e2, eo = some e2 → ∀ x ∈ e2.subItems, x.info.id ∈ ids) :
    MarkLe ids st (floodIfNew st eo) := by
  cases eo with
  | none =>
    rw [floodIfNew_none]
    exact MarkLe.refl _ _
  | some e =>
    rw [floodIfNew_some]
    split
    · exact MarkLe.refl _ _
    · exact markDescendants_le st e (hmem e rfl)

theorem legitRevisit_le {root : Item} (st : MarkState) (it : Item)
    (hit : it ∈ root.subItems) :
    MarkLe root.idList st (legitRevisit st it) := by
  have hids : ∀ y ∈ root.subItems, ∀ x ∈ y.subItems, x.info.id ∈ root.idList :=
    fun y hy x hx => mem_idList (subItems_trans hy hx)
  have hch : ∀ e2 : Item, e2 ∈ it.children →
      ∀ x ∈ e2.subItems, x.info.id ∈ root.idList :=
    fun e2 he2 => hids e2 (subItems_trans hit (mem_subItems_of_child he2))
  cases hge : govExpr it with
  | none =>
    rw [legitRevisit_of_none st hge]
    exact MarkLe.refl _ _
  | some e =>
    rw [legitRevisit_of_some st hge]
    split
    · exact MarkLe.refl _ _
    · split
      · refine MarkLe.trans (markDescendants_le st e (hch e (govExpr_mem hge)))
          (MarkLe.trans
            (floodIfNew_le _ (forInit it)
              (fun e2 he2 => hch e2 (forInit_mem he2)))
            (floodIfNew_le _ (forStep it)
              (fun e2 he2 => hch e2 (forStep_mem he2))))
      · exact markDescendants_le st e (hch e (govExpr_mem hge))

theorem scanVisit_le (tr : String → String) (root : Item) (st : MarkState)
    (it : Item) (hit : it ∈ root.subItems) :
    MarkLe root.idList st (scanVisit tr root st it) := by
  have hids : ∀ y ∈ root.subItems, ∀ x ∈ y.subItems, x.info.id ∈ root.idList :=
    fun y hy x hx => mem_idList (subItems_trans hy hx)
  unfold scanVisit
  split
  · exact legitRevisit_le st it hit
  · split
    · refine foldl_markLe _ _ (fun st2 a ha => ?_) st
      exact walkStep_le tr st2 a (hids a (ancestorsOf_mem hit a ha))
    · exact MarkLe.refl _ _

theorem markPass_le (tr : String → String) (root : Item) (st : MarkState) :
    MarkLe root.idList st (markPass tr root st) := by
  unfold markPass
  exact foldl_markLe _ _ (fun st2 a ha => scanVisit_le tr root st2 a ha) st

theorem markLoop_le (tr : String → String) (root : Item) :
    ∀ fuel st,
      st.legit ⊆ (markLoop tr root fuel st).legit ∧
      (∀ i, st.varLegit.getD i false = true →
        (markLoop tr root fuel st).varLegit.getD i false = true) ∧
      (markLoop tr root fuel st).varLegit.length = st.varLegit.length ∧
      (st.legit.Nodup → (markLoop tr root fuel st).legit.Nodup) ∧
      (∀ x ∈ (markLoop tr root fuel st).legit,
        x ∈ st.legit ∨ x ∈ root.idList) := by
  intro fuel
  induction fuel with
  | zero =>
    intro st
    exact ⟨fun _ h => h, fun _ h => h, rfl, fun h => h, fun _ h => Or.inl h⟩
  | succ fuel ih =>
    intro st
    have h1 := markPass_le tr root { st with newFound := false }
    unfold markLoop
    split
    · rcases ih (markPass tr root { st with newFound := false }) with
        ⟨s1, s2, s3, s4, s5⟩
      refine ⟨fun x hx => s1 (h1.legitSub hx),
        fun i hv => s2 i (h1.varMono i hv),
        s3.trans h1.varLen,
        fun hn => s4 (h1.keepNodup hn),
        fun x hx => ?_⟩
      rcases s5 x hx with h2 | h2
      · exact h1.fresh x h2
      · exact Or.inr h2
    · exact ⟨fun x hx => h1.legitSub hx, fun i hv => h1.varMono i hv,
        h1.varLen, fun hn => h1.keepNodup hn, fun x hx => h1.fresh x hx⟩

theorem markLoop_converges (tr : String → String) (root : Item)
    (hnodup : root.idList.Nodup) :
    ∀ fuel st, st.legit.Nodup → (∀ x ∈ st.legit, x ∈ root.idList) →
      root.idList.length + 1 ≤ fuel + st.legit.length →
      (markLoop tr root fuel st).newFound = false := by
  intro fuel
  induction fuel with
  | zero =>
    intro st hn hsub hle
    have := length_le_of_nodup_subset hn hsub hnodup
    omega
  | succ fuel ih =>
    intro st hn hsub hle
    have h1 := markPass_le tr root { st with newFound := false }
    unfold markLoop
    split
    · rename_i hnf
      rcases h1.foundStep with h2 | h2
    -- the pass starts with `fNewLegitItemFound = false`; it ended true,
    -- so the legitimacy set strictly grew
      · rw [hnf] at h2
        cases h2
      · refine ih _ (h1.keepNodup hn) (fun x hx => ?_) (by
          have := h2.2
          simp only [MarkState.legit] at this ⊢
          omega)
        rcases h1.fresh x hx with h3 | h3
        · exact hsub x h3
        · exact h3
    · rename_i hnf
      simpa using hnf

/-!
## Finalizer lemmas
-/

theorem finalizeVars_length (vars : List Lvar) :
    ∀ bm, (finalizeVars vars bm).length = vars.length := by
  induction vars with
  | nil => intro bm; simp [finalizeVars]
  | cons v vs ih => intro bm; simp [finalizeVars, ih]

theorem finalizeVars_getD (vars : List Lvar) :
    ∀ bm i, i < vars.length →
      (finalizeVars vars bm).getD i ⟨false, false⟩ =
        (if bm.getD i false then vars.getD i ⟨false, false⟩
         else { vars.getD i ⟨false, false⟩ with used := false }) := by
  induction vars with
  | nil => intro bm i hi; simp at hi
  | cons v vs ih =>
    intro bm i hi
    cases i with
    | zero =>
      cases bm with
      | nil => simp [finalizeVars]
      | cons b bs => simp [finalizeVars]
    | succ i =>
      have hlt : i < vs.length := by simpa using hi
      cases bm with
      | nil =>
        simp only [finalizeVars, List.getD_cons_succ, List.tail_nil]
        rw [ih [] i hlt]
        simp
      | cons b bs =>
        simp only [finalizeVars, List.getD_cons_succ, List.tail_cons]
        rw [ih bs i hlt]

theorem initBitmap_getD (vars : List Lvar) (i : Nat) (hi : i < vars.length) :
    (vars.map (fun v => v.isArg)).getD i false =
      (vars.getD i ⟨false, false⟩).isArg := by
  induction vars generalizing i with
  | nil => simp at hi
  | cons v vs ih =>
    cases i with
    | zero => simp
    | succ i => simpa using ih i (by simpa using hi)

/-!
## Claim theorems
-/

/-- C2.  The call classifier: a call whose callee is not a named helper is
legitimate; a helper callee is classified by rendering its name, stripping
tags, and matching the fixed deny-list (not legitimate exactly on a match,
legitimate on any other name); rendering failure is classified not
legitimate; and the deny-list holds the defs.h intrinsic macro names
(LOBYTE, HIWORD, __ROL__, __CFADD__, ...). -/
theorem c2_call_classifier (tr : String → String) (e callee : Item)
    (args : List Item) (hop : e.info.op = .cot_call)
    (hch : e.children = callee :: args) :
    (callee.info.op ≠ .cot_helper → IsLegitimateCall tr e = true) ∧
    (callee.info.op = .cot_helper →
      (callee.info.printed = none → IsLegitimateCall tr e = false) ∧
      (∀ s, callee.info.printed = some s →
        (IsLegitimateCall tr e = false ↔ tr s ∈ aszNonLegitHelpers))) ∧
    "LOBYTE" ∈ aszNonLegitHelpers ∧ "HIWORD" ∈ aszNonLegitHelpers ∧
    "__ROL__" ∈ aszNonLegitHelpers ∧ "__CFADD__" ∈ aszNonLegitHelpers := by
  refine ⟨?_, fun hh => ⟨fun hpr => ?_, fun s hpr => ?_⟩,
    by decide, by decide, by decide, by decide⟩
  · intro hnh
    simp [IsLegitimateCall, hop, hch, hnh]
  · simp [IsLegitimateCall, hop, hch, hh, hpr]
  · simp only [IsLegitimateCall, hop, hch]
    simp [hh, hpr]

/-- Witness for C2 at a concrete call: callee is the helper "LOBYTE". -/
theorem c2_call_classifier_witness :
    IsLegitimateCall (fun s => s)
      (.node { id := 0, op := .cot_call }
        [.node { id := 1, op := .cot_helper, printed := some "LOBYTE" } []])
      = false :=
  (((c2_call_classifier (fun s => s)
      (.node { id := 0, op := .cot_call }
        [.node { id := 1, op := .cot_helper, printed := some "LOBYTE" } []])
      (.node { id := 1, op := .cot_helper, printed := some "LOBYTE" } [])
      [] rfl rfl).2.1 rfl).2 "LOBYTE" rfl).mpr (by decide)

/-- C10.  The classifier is total and yields false on every non-call
expression, without consulting the callee or any name (lines 191-196). -/
theorem c10_nonCall_not_legitimate (tr : String → String) (e : Item)
    (h : e.info.op ≠ .cot_call) : IsLegitimateCall tr e = false := by
  simp [IsLegitimateCall, h]

/-- Witness for C10 at a concrete non-call expression. -/
theorem c10_nonCall_not_legitimate_witness :
    IsLegitimateCall (fun s => s) (.node { id := 0, op := .cot_var } []) = false :=
  c10_nonCall_not_legitimate (fun s => s)
    (.node { id := 0, op := .cot_var } []) (by decide)

/-- A function body containing one inline-assembly statement. -/
def asmTree : Item :=
  .node { id := 0, op := .cit_block }
    [.node { id := 1, op := .cit_asm } []]

/-- C4 (the code contradicts this claim).  In the candidate test of
lines 471-478, `|| (pItem->op == cit_asm)` is placed outside the negation,
so a `cit_asm` item always makes the guard take the `return 0` branch: an
inline-assembly statement is NOT classified as an immediate-legitimacy
candidate, and visiting it adds nothing to the legitimacy set — the whole
marking fixed point over a body holding only an asm statement ends with the
set still empty, although the comment at lines 447-451 announces that
asm-statements mark their ancestors. -/
theorem c4_asm_never_candidate :
    scanCandidate (fun s => s) (initMarkState [])
      (.node { id := 1, op := .cit_asm } []) = false ∧
    scanVisit (fun s => s) asmTree (initMarkState [])
      (.node { id := 1, op := .cit_asm } []) = initMarkState [] ∧
    (markLoop (fun s => s) asmTree (asmTree.size + 1) (initMarkState [])).legit
      = [] := by
  refine ⟨by decide, ?_, ?_⟩ <;> rfl

/-- C7.  Throughout the marking phase the legitimacy set only grows and the
variable bitmap only flips entries from false to true: this holds for every
single Scanning-mode visit of an item of the tree, and for the whole
fixed-point loop from any intermediate state. -/
theorem c7_marking_monotone (tr : String → String) (root : Item) :
    (∀ (st : MarkState) (it : Item), it ∈ root.subItems →
      st.legit ⊆ (scanVisit tr root st it).legit ∧
      (∀ i, st.varLegit.getD i false = true →
        (scanVisit tr root st it).varLegit.getD i false = true)) ∧
    (∀ (fuel : Nat) (st : MarkState),
      st.legit ⊆ (markLoop tr root fuel st).legit ∧
      (∀ i, st.varLegit.getD i false = true →
        (markLoop tr root fuel st).varLegit.getD i false = true)) := by
  constructor
  · intro st it hit
    have h := scanVisit_le tr root st it hit
    exact ⟨h.legitSub, h.varMono⟩
  · intro fuel st
    rcases markLoop_le tr root fuel st with ⟨s1, s2, _, _, _⟩
    exact ⟨s1, s2⟩

/-- Witness for C7 at a concrete state and item. -/
theorem c7_marking_monotone_witness :
    (.node { id := 1, op := .cit_asm } []) ∈ asmTree.subItems ∧
    ([3] : List Nat) ⊆ (scanVisit (fun s => s) asmTree
      { legit := [3], varLegit := [true], descMarked := [], newFound := false }
      (.node { id := 1, op := .cit_asm } [])).legit := by
  have hmem : (Item.node { id := 1, op := .cit_asm } []) ∈ asmTree.subItems := by
    rw [show asmTree.subItems =
      [asmTree, Item.node { id := 1, op := .cit_asm } []] from rfl]
    simp
  exact ⟨hmem,
    ((c7_marking_monotone (fun s => s) asmTree).1
      { legit := [3], varLegit := [true], descMarked := [], newFound := false }
      (.node { id := 1, op := .cit_asm } []) hmem).1⟩

/-- C1.  After a successful detox invocation the finalizer clears a
variable's "is-used" flag exactly when its legitimacy bitmap entry is
false; the bitmap is initialized from `is_arg_var()` and evolves
monotonically, so every argument variable's entry is true and its flag is
untouched, whether or not the body references it. -/
theorem c1_argument_preservation (tr : String → String) (root : Item)
    (vars : List Lvar) (i : Nat) (hi : i < vars.length) :
    (Detox tr false root vars).2 =
      some (finalizeVars vars (detoxMark tr root vars).varLegit) ∧
    ((finalizeVars vars (detoxMark tr root vars).varLegit).getD i
        ⟨false, false⟩).used =
      (if (detoxMark tr root vars).varLegit.getD i false
       then (vars.getD i ⟨false, false⟩).used else false) ∧
    ((vars.getD i ⟨false, false⟩).isArg = true →
      (detoxMark tr root vars).varLegit.getD i false = true ∧
      ((finalizeVars vars (detoxMark tr root vars).varLegit).getD i
          ⟨false, false⟩).used = (vars.getD i ⟨false, false⟩).used) := by
  have hbm : (detoxMark tr root vars).varLegit.getD i false = true →
      True := fun _ => trivial
  refine ⟨rfl, ?_, ?_⟩
  · rw [finalizeVars_getD vars _ i hi]
    split <;> rfl
  · intro harg
    have hmono := (markLoop_le tr root (root.size + 1)
      (initMarkState (vars.map (fun v => v.isArg)))).2.1 i
    have hinit : (initMarkState (vars.map (fun v => v.isArg))).varLegit.getD
        i false = true := by
      simp only [initMarkState]
      rw [initBitmap_getD vars i hi, harg]
    have htrue : (detoxMark tr root vars).varLegit.getD i false = true := by
      unfold detoxMark
      exact hmono hinit
    refine ⟨htrue, ?_⟩
    rw [finalizeVars_getD vars _ i hi, htrue]
    simp

/-- Witness for C1: one argument variable, never referenced in the body. -/
theorem c1_argument_preservation_witness :
    0 < ([⟨true, true⟩] : List Lvar).length ∧
    (([⟨true, true⟩] : List Lvar).getD 0 ⟨false, false⟩).isArg = true ∧
    ((finalizeVars [⟨true, true⟩]
        (detoxMark (fun s => s) asmTree [⟨true, true⟩]).varLegit).getD 0
        ⟨false, false⟩).used = true :=
  ⟨by decide, by decide,
    by
      have h := ((c1_argument_preservation (fun s => s) asmTree
        [⟨true, true⟩] 0 (by decide)).2.2 (by decide)).2
      rw [h]
      decide⟩

/-- A function body: one block holding one expression-statement over a
variable reference. -/
def c3Tree : Item :=
  .node { id := 0, op := .cit_block }
    [.node { id := 1, op := .cit_expr }
      [.node { id := 2, op := .cot_var, varIdx := 0 } []]]

/-- C3 (the code contradicts this claim).  When the bitmap allocation
fails, `Initialize` returns false, the first `visit_item` returns 1 and the
marking traversal stops with an empty legitimacy vector — but `Detox` never
checks for the failure: the pruning loop still runs, consults the empty
vector, and deletes the expression-statement (the AST is mutated, here down
to an empty block), and the finalizer then reads the NULL
`afVariableIsLegit` array (line 1063), so no defined variable result exists
at all — nothing is "left untouched" and nothing is "reported to the
caller" (`Detox` returns void). -/
theorem c3_allocFail_still_mutates :
    (Detox (fun s => s) true c3Tree [⟨false, true⟩]).1 =
      .node { id := 0, op := .cit_block } [] ∧
    (Detox (fun s => s) true c3Tree [⟨false, true⟩]).2 = none ∧
    c3Tree ≠ .node { id := 0, op := .cit_block } [] := by
  refine ⟨rfl, rfl, fun h => ?_⟩
  have h2 := congrArg (fun t => t.children.length) h
  simp [c3Tree, Item.children] at h2

theorem findPruneActionList_ex {legit : List Nat} {cs : List Item}
    {a : PruneAction} (h : findPruneActionList legit cs = some a) :
    ∃ c ∈ cs, findPruneAction legit c = some a := by
  induction cs with
  | nil => simp [findPruneActionList] at h
  | cons c cs ih =>
    unfold findPruneActionList at h
    cases hfc : findPruneAction legit c with
    | some b =>
      rw [hfc] at h
      obtain rfl : b = a := by injection h
      exact ⟨c, by simp, hfc⟩
    | none =>
      rw [hfc] at h
      rcases ih h with ⟨c2, hc2, he⟩
      exact ⟨c2, by simp [hc2], he⟩

theorem findPruneAction_cases (legit : List Nat) :
    ∀ (t : Item) (a : PruneAction), findPruneAction legit t = some a →
      (∃ B ∈ t.subItems, B.info.op = .cit_block ∧
        ∃ c, B.children.find? (fun c => emptyKind c.info.op) = some c ∧
          a = .eraseEmpty B.info.id c.info.id) ∨
      (∃ S ∈ t.subItems, sevenKind S.info.op = false ∧
        isExprOp S.info.op = false ∧ S.info.op ≠ .cit_block ∧
        legit.contains S.info.id = false ∧ a = .cleanupStmt S.info.id) := by
  intro t
  induction t using Item.strongInduction with
  | _ d cs ih =>
    intro a h
    have hlift : findPruneActionList legit cs = some a →
        (∃ B ∈ (Item.node d cs).subItems, B.info.op = .cit_block ∧
          ∃ c, B.children.find? (fun c => emptyKind c.info.op) = some c ∧
            a = .eraseEmpty B.info.id c.info.id) ∨
        (∃ S ∈ (Item.node d cs).subItems, sevenKind S.info.op = false ∧
          isExprOp S.info.op = false ∧ S.info.op ≠ .cit_block ∧
          legit.contains S.info.id = false ∧ a = .cleanupStmt S.info.id) := by
      intro hl
      rcases findPruneActionList_ex hl with ⟨c, hc, he⟩
      rcases ih c hc a he with ⟨B, hB, rest⟩ | ⟨S, hS, rest⟩
      · exact Or.inl ⟨B, mem_subItems_trans hc hB, rest⟩
      · exact Or.inr ⟨S, mem_subItems_trans hc hS, rest⟩
    unfold findPruneAction at h
    split at h
    · rename_i hblock
      cases hfind : cs.find? (fun c => emptyKind c.info.op) with
      | some c =>
        rw [hfind] at h
        refine Or.inl ⟨.node d cs, self_mem_subItems _, hblock, c, hfind, ?_⟩
        injection h with h2
        exact h2.symm
      | none =>
        rw [hfind] at h
        exact hlift h
    · split at h
      · cases h
      · split at h
        · exact hlift h
        · split at h
          · exact hlift h
          · rename_i hnb h7 hleg hexp
            refine Or.inr ⟨.node d cs, self_mem_subItems _, ?_, ?_, hnb, ?_, ?_⟩
            · simpa using h7
            · simpa using hexp
            · simpa using hleg
            · injection h with h2
              exact h2.symm

theorem findPruneAction_seven {legit : List Nat} {d : NodeInfo} {cs : List Item}
    (h7 : sevenKind d.op = true) :
    findPruneAction legit (.node d cs) = none := by
  have hnb : d.op ≠ .cit_block := by
    intro he
    rw [he] at h7
    simp [sevenKind] at h7
  unfold findPruneAction
  simp [hnb, h7]

/-- C6.  In Pruning mode the only deletion targets are (a) the first
empty-statement/empty-expression child found in a block and (b)
non-legitimate statement items that are not of the seven protected kinds;
an item of the seven kinds makes its whole subtree yield no action (its
children are not descended into), an expression is never the cleanup
target, and an item in the legitimacy set is never the cleanup target. -/
theorem c6_prune_deletion_targets (legit : List Nat) (t : Item) :
    (∀ bid cid, findPruneAction legit t = some (.eraseEmpty bid cid) →
      ∃ B ∈ t.subItems, B.info.op = .cit_block ∧ B.info.id = bid ∧
        ∃ c, B.children.find? (fun c => emptyKind c.info.op) = some c ∧
          c ∈ B.children ∧ c.info.id = cid ∧ emptyKind c.info.op = true) ∧
    (∀ sid, findPruneAction legit t = some (.cleanupStmt sid) →
      ∃ S ∈ t.subItems, S.info.id = sid ∧ sevenKind S.info.op = false ∧
        isExprOp S.info.op = false ∧ S.info.op ≠ .cit_block ∧
        legit.contains S.info.id = false) ∧
    (sevenKind t.info.op = true → findPruneAction legit t = none) := by
  refine ⟨?_, ?_, ?_⟩
  · intro bid cid h
    rcases findPruneAction_cases legit t _ h with
      ⟨B, hB, hop, c, hfind, he⟩ | ⟨S, _, _, _, _, _, he⟩
    · injection he with h1 h2
      exact ⟨B, hB, hop, h1.symm, c, hfind,
        List.mem_of_find?_eq_some hfind, h2.symm,
        by simpa using List.find?_some hfind⟩
    · cases he
  · intro sid h
    rcases findPruneAction_cases legit t _ h with
      ⟨B, hB, hop, c, hfind, he⟩ | ⟨S, hS, h7, hexp, hnb, hleg, he⟩
    · cases he
    · injection he with h1
      exact ⟨S, hS, h1.symm, h7, hexp, hnb, hleg⟩
  · intro h7
    cases t with
    | node d cs => exact findPruneAction_seven h7

/-- Witness for C6: a concrete pruning decision — the block's non-legitimate
expression-statement child is the cleanup target. -/
theorem c6_prune_deletion_targets_witness :
    findPruneAction [0] c3Tree = some (.cleanupStmt 1) ∧
    ∃ S ∈ c3Tree.subItems, S.info.id = 1 ∧ sevenKind S.info.op = false ∧
      isExprOp S.info.op = false ∧ S.info.op ≠ .cit_block ∧
      ([0] : List Nat).contains S.info.id = false :=
  ⟨rfl, (c6_prune_deletion_targets [0] c3Tree).2.1 1 rfl⟩

theorem selectStep_skip {ea : Nat} {c : Item} (acc : Option Item)
    (hq : ¬ c.info.ea > ea) : selectStep ea acc c = acc := by
  simp [selectStep, hq]

theorem selectStep_first {ea : Nat} {c : Item} (hq : c.info.ea > ea) :
    selectStep ea none c = some c := by
  simp [selectStep, hq]

theorem selectStep_better {ea : Nat} {c b : Item} (hq : c.info.ea > ea)
    (hlt : c.info.ea < b.info.ea) : selectStep ea (some b) c = some c := by
  simp [selectStep, hq, hlt]

theorem selectStep_keep {ea : Nat} {c b : Item} (hq : c.info.ea > ea)
    (hlt : ¬ c.info.ea < b.info.ea) : selectStep ea (some b) c = some b := by
  simp [selectStep, hq, hlt]

theorem selectDest_go (ea : Nat) :
    ∀ (cs : List Item) (acc : Option Item),
      (∀ b, acc = some b → b.info.ea > ea) →
      match cs.foldl (selectStep ea) acc with
      | none => acc = none ∧ ∀ c ∈ cs, ¬(c.info.ea > ea)
      | some c => (acc = some c ∨ c ∈ cs) ∧ c.info.ea > ea ∧
          (∀ c2 ∈ cs, c2.info.ea > ea → c.info.ea ≤ c2.info.ea) ∧
          (∀ b, acc = some b → c.info.ea ≤ b.info.ea) := by
  intro cs
  induction cs with
  | nil =>
    intro acc hacc
    cases acc with
    | none => simp
    | some b => simp [hacc b rfl]
  | cons c cs ih =>
    intro acc hacc
    simp only [List.foldl_cons]
    by_cases hq : c.info.ea > ea
    · obtain ⟨b, hstep, hbgt, hblec, hbleb, hborig⟩ :
          ∃ b, selectStep ea acc c = some b ∧ b.info.ea > ea ∧
            b.info.ea ≤ c.info.ea ∧
            (∀ b0, acc = some b0 → b.info.ea ≤ b0.info.ea) ∧
            (acc = some b ∨ b = c) := by
        cases acc with
        | none => exact ⟨c, selectStep_first hq, hq, le_rfl, by simp, Or.inr rfl⟩
        | some b0 =>
          by_cases hlt : c.info.ea < b0.info.ea
          · refine ⟨c, selectStep_better hq hlt, hq, le_rfl, ?_, Or.inr rfl⟩
            intro b1 hb1
            injection hb1 with e
            subst e
            omega
          · refine ⟨b0, selectStep_keep hq hlt, hacc b0 rfl, by omega, ?_,
              Or.inl rfl⟩
            intro b1 hb1
            injection hb1 with e
            subst e
            exact le_rfl
      rw [hstep]
      have h2 := ih (some b)
        (fun b2 hb2 => by injection hb2 with e; subst e; exact hbgt)
      revert h2
      cases hm : cs.foldl (selectStep ea) (some b) with
      | none => intro h2; exact absurd h2.1 (by simp)
      | some r =>
        intro h2
        rcases h2 with ⟨ho, hg, hmin, ha2⟩
        have hrb : r.info.ea ≤ b.info.ea := ha2 b rfl
        refine ⟨?_, hg, ?_, ?_⟩
        · rcases ho with he | hm2
          · injection he with he
            subst he
            rcases hborig with h3 | h3
            · exact Or.inl h3
            · exact Or.inr (by simp [h3])
          · exact Or.inr (by simp [hm2])
        · intro c2 hc2 hq2
          rcases List.mem_cons.mp hc2 with rfl | hc2
          · omega
          · exact hmin c2 hc2 hq2
        · intro b0 hb0
          have := hbleb b0 hb0
          omega
    · rw [selectStep_skip acc hq]
      have h2 := ih acc hacc
      revert h2
      cases hm : cs.foldl (selectStep ea) acc with
      | none =>
        intro h2
        refine ⟨h2.1, ?_⟩
        intro c2 hc2
        rcases List.mem_cons.mp hc2 with rfl | hc2
        · exact hq
        · exact h2.2 c2 hc2
      | some r =>
        intro h2
        rcases h2 with ⟨horig, hgt, hmin, hacc2⟩
        refine ⟨?_, hgt, ?_, hacc2⟩
        · rcases horig with he | hm2
          · exact Or.inl he
          · exact Or.inr (by simp [hm2])
        · intro c2 hc2 hq2
          rcases List.mem_cons.mp hc2 with rfl | hc2
          · exact absurd hq2 hq
          · exact hmin c2 hc2 hq2

theorem selectDest_none_iff (ea : Nat) (cs : List Item) :
    selectDest ea cs = none ↔ ∀ c ∈ cs, ¬(c.info.ea > ea) := by
  have h := selectDest_go ea cs none (by simp)
  revert h
  unfold selectDest
  cases hm : cs.foldl (selectStep ea) none with
  | none =>
    intro h
    exact iff_of_true rfl h.2
  | some r =>
    intro h
    constructor
    · intro he
      cases he
    · intro hall
      exfalso
      rcases h with ⟨ho, hg, _, _⟩
      rcases ho with he | hm2
      · cases he
      · exact hall r hm2 hg

theorem selectDest_some_spec {ea : Nat} {cs : List Item} {c : Item}
    (h : selectDest ea cs = some c) :
    c ∈ cs ∧ c.info.ea > ea ∧
      ∀ c2 ∈ cs, c2.info.ea > ea → c.info.ea ≤ c2.info.ea := by
  have h2 := selectDest_go ea cs none (by simp)
  revert h2
  unfold selectDest at h
  rw [h]
  intro h2
  rcases h2 with ⟨ho, hg, hmin, _⟩
  rcases ho with he | hm2
  · cases he
  · exact ⟨hm2, hg, hmin⟩

theorem findSome_selectDest (ea : Nat) :
    ∀ bs : List Item,
      (bs.findSome? (fun b => selectDest ea b.children) = none ↔
        ∀ b ∈ bs, ∀ c ∈ b.children, ¬(c.info.ea > ea)) ∧
      (∀ B, bs.find? (fun b => b.children.any (fun c => c.info.ea > ea))
          = some B →
        bs.findSome? (fun b => selectDest ea b.children)
          = selectDest ea B.children) := by
  intro bs
  induction bs with
  | nil => simp [List.findSome?]
  | cons b bs ih =>
    cases hsel : selectDest ea b.children with
    | some c =>
      have hspec := selectDest_some_spec hsel
      have hany : b.children.any (fun c => c.info.ea > ea) = true := by
        simp only [List.any_eq_true]
        exact ⟨c, hspec.1, by simpa using hspec.2.1⟩
      constructor
      · rw [List.findSome?_cons, hsel]
        constructor
        · intro he
          cases he
        · intro hall
          exact absurd (by simpa using hspec.2.1) (hall b (by simp) c hspec.1)
      · intro B hB
        rw [List.find?_cons, hany] at hB
        obtain rfl : b = B := by injection hB
        rw [List.findSome?_cons, hsel]
    | none =>
      have hnone := (selectDest_none_iff ea b.children).mp hsel
      have hany : b.children.any (fun c => c.info.ea > ea) = false := by
        simp only [List.any_eq_false]
        intro c hc
        simpa using hnone c hc
      constructor
      · rw [List.findSome?_cons, hsel]
        rw [ih.1]
        constructor
        · intro hall b2 hb2 c hc
          rcases List.mem_cons.mp hb2 with rfl | hb2
          · exact hnone c hc
          · exact hall b2 hb2 c hc
        · intro hall b2 hb2 c hc
          exact hall b2 (by simp [hb2]) c hc
      · intro B hB
        rw [List.find?_cons, hany] at hB
        rw [List.findSome?_cons, hsel]
        exact ih.2 B hB

theorem info_mapInfo (f : NodeInfo → NodeInfo) (t : Item) :
    (mapInfo f t).info = f t.info := by
  cases t with
  | node d cs => rfl

theorem mapInfoList_eq_map (f : NodeInfo → NodeInfo) :
    ∀ cs : List Item, mapInfoList f cs = cs.map (mapInfo f) := by
  intro cs
  induction cs with
  | nil => rfl
  | cons c cs ih => simp [mapInfoList, ih]

theorem subItemsList_map_of (f : NodeInfo → NodeInfo) (cs : List Item)
    (h : ∀ c ∈ cs, (mapInfo f c).subItems = c.subItems.map (mapInfo f)) :
    Item.subItemsList (cs.map (mapInfo f)) =
      (Item.subItemsList cs).map (mapInfo f) := by
  induction cs with
  | nil => rfl
  | cons c cs ih =>
    simp only [List.map_cons, Item.subItemsList, List.map_append]
    rw [h c (by simp), ih (fun c2 hc2 => h c2 (by simp [hc2]))]

theorem subItems_mapInfo (f : NodeInfo → NodeInfo) :
    ∀ t : Item, (mapInfo f t).subItems = t.subItems.map (mapInfo f) := by
  intro t
  induction t using Item.strongInduction with
  | _ d cs ih =>
    show (Item.node (f d) (mapInfoList f cs)).subItems = _
    rw [subItems_node, subItems_node]
    simp only [List.map_cons]
    rw [mapInfoList_eq_map, subItemsList_map_of f cs ih]
    congr 1
    rw [show mapInfo f (Item.node d cs) =
      Item.node (f d) (mapInfoList f cs) from rfl, mapInfoList_eq_map]

theorem mapInfo_infos (f : NodeInfo → NodeInfo) (t : Item) :
    (mapInfo f t).subItems.map Item.info =
      t.subItems.map (fun y => f y.info) := by
  rw [subItems_mapInfo, List.map_map]
  apply List.map_congr_left
  intro x hx
  exact info_mapInfo f x

theorem convertGotosList_pieces (old : Int) :
    ∀ (cs : List Item) (base : Nat) (c2 : Item),
      c2 ∈ (convertGotosList old cs base).1 →
      ∃ c ∈ cs, ∃ b : Nat, c2 = (convertGotos old c b).1 := by
  intro cs
  induction cs with
  | nil => intro base c2 h; simp [convertGotosList] at h
  | cons c cs ih =>
    intro base c2 h
    unfold convertGotosList at h
    simp only [List.mem_cons] at h
    rcases h with rfl | h
    · exact ⟨c, by simp, base, rfl⟩
    · rcases ih _ c2 h with ⟨c3, hc3, b, he⟩
      exact ⟨c3, by simp [hc3], b, he⟩

theorem convertGotosList_length (old : Int) :
    ∀ (cs : List Item) (base : Nat),
      (convertGotosList old cs base).1.length = cs.length := by
  intro cs
  induction cs with
  | nil => intro base; rfl
  | cons c cs ih =>
    intro base
    unfold convertGotosList
    simp [ih]

theorem convertGotos_infos (old : Int) :
    ∀ (t : Item) (base : Nat), ∀ x ∈ (convertGotos old t base).1.subItems,
      (∃ y ∈ t.subItems, ¬(y.info.op = .cit_goto ∧ y.info.target = old) ∧
        x.info = y.info ∧ x.children.length = y.children.length) ∨
      (∃ y ∈ t.subItems, y.info.op = .cit_goto ∧ y.info.target = old ∧
        x.info = { y.info with op := .cit_return, target := -1 } ∧
        x.children.map (fun c => c.info.op) = [.cot_empty]) ∨
      (x.info.op = .cot_empty ∧ x.children = []) := by
  intro t
  induction t using Item.strongInduction with
  | _ d cs ih =>
    intro base x hx
    unfold convertGotos at hx
    by_cases hg : d.op = .cit_goto ∧ d.target = old
    · rw [if_pos hg] at hx
      rw [subItems_node] at hx
      simp only [Item.subItemsList, List.mem_cons] at hx
      rcases hx with rfl | hx
      · refine Or.inr (Or.inl ⟨.node d cs, self_mem_subItems _, hg.1, hg.2,
          rfl, rfl⟩)
      · simp [Item.subItems, Item.subItemsList] at hx
        subst hx
        exact Or.inr (Or.inr ⟨rfl, rfl⟩)
    · rw [if_neg hg] at hx
      rw [subItems_node] at hx
      rcases List.mem_cons.mp hx with rfl | hx
      · exact Or.inl ⟨.node d cs, self_mem_subItems _, hg, rfl, by
          simp [Item.children, convertGotosList_length]⟩
      · rcases mem_subItemsList.mp hx with ⟨c2, hc2, hxc⟩
        rcases convertGotosList_pieces old cs base c2 hc2 with ⟨c, hc, b, rfl⟩
        rcases ih c hc b x hxc with
          ⟨y, hy, rest⟩ | ⟨y, hy, rest⟩ | h3
        · exact Or.inl ⟨y, mem_subItems_trans hc hy, rest⟩
        · exact Or.inr (Or.inl ⟨y, mem_subItems_trans hc hy, rest⟩)
        · exact Or.inr (Or.inr h3)

def c5Tree : Item :=
  .node { id := 0, op := .cit_block, ea := 0 }
    [.node { id := 1, op := .cit_block, ea := 40 }
      [.node { id := 2, op := .cit_expr, label := 7, ea := 50 }
        [.node { id := 3, op := .cot_var, ea := 50 } []]],
     .node { id := 4, op := .cit_expr, ea := 100 }
       [.node { id := 5, op := .cot_var, ea := 100 } []]]

def c5Labeled : Item :=
  .node { id := 2, op := .cit_expr, label := 7, ea := 50 }
    [.node { id := 3, op := .cot_var, ea := 50 } []]

def c5Inner : Item :=
  .node { id := 1, op := .cit_block, ea := 40 }
    [.node { id := 2, op := .cit_expr, label := 7, ea := 50 }
      [.node { id := 3, op := .cot_var, ea := 50 } []]]

/-- C5 counterexample.  The labeled expression-statement (id 2, `ea` 50,
label 7) sits in the inner block (id 1); that block — its nearest ancestor
block — exists but has no child at an address strictly greater than 50, so
the claim's rule ("the new label carrier is the direct child of that block
with the smallest address among those whose address is strictly greater")
yields no carrier, and its fallback ("if no ancestor block exists at all"
convert gotos to returns) does not fire either; the code instead keeps
walking and moves the label to item 4, a child of the outer block. -/
theorem c5_counterexample :
    c5Labeled.info.label ≠ -1 ∧
    (ancestorBlocks c5Tree c5Labeled).head? = some c5Inner ∧
    (∀ c ∈ c5Inner.children, ¬(c.info.ea > c5Labeled.info.ea)) ∧
    relocOutcome c5Tree c5Labeled = .moveLabel 4 7 ∧
    (∀ c ∈ c5Inner.children, c.info.id ≠ 4) := by
  refine ⟨by decide, rfl, by decide, rfl, by decide⟩

theorem relocOutcome_of_none {root L : Item}
    (h : findNewDestination root L = none) :
    relocOutcome root L = .convertGotos L.info.label := by
  unfold relocOutcome
  rw [h]

theorem relocOutcome_of_some {root L dest : Item}
    (h : findNewDestination root L = some dest) :
    relocOutcome root L =
      (if dest.info.label ≠ -1
       then .redirectGotos L.info.label dest.info.label
       else .moveLabel dest.info.id L.info.label) := by
  unfold relocOutcome
  rw [h]

/-- C5 as amended.  Goto-label relocation walks up through the ancestor
blocks, nearest first: the carrier is the least-address child (among those
with address strictly greater than the labeled item's) of the FIRST
ancestor block having any such child — not necessarily the nearest block;
the gotos are converted to bare returns exactly when no ancestor block at
any level has such a child (in particular when no ancestor block exists);
a carrier with its own label redirects the gotos targeting the old label
to it and nothing is moved, an unlabeled carrier receives the label while
the original item's label is cleared; redirect rewrites exactly the gotos
targeting the old label, and conversion replaces each goto targeting the
old label in place by a bare return keeping the goto's address and label
number (its fresh `creturn` holds one `cot_empty` expression), leaving all
other items' data unchanged and no goto targeting the old label behind. -/
theorem c5_relocation_amended (root L : Item) :
    (∀ B, (ancestorBlocks root L).find?
        (fun b => b.children.any (fun c => c.info.ea > L.info.ea)) = some B →
      ∃ c, findNewDestination root L = some c ∧ c ∈ B.children ∧
        c.info.ea > L.info.ea ∧
        (∀ c2 ∈ B.children, c2.info.ea > L.info.ea → c.info.ea ≤ c2.info.ea) ∧
        relocOutcome root L =
          (if c.info.label ≠ -1
           then .redirectGotos L.info.label c.info.label
           else .moveLabel c.info.id L.info.label)) ∧
    (relocOutcome root L = .convertGotos L.info.label ↔
      ∀ B ∈ ancestorBlocks root L, ∀ c ∈ B.children,
        ¬(c.info.ea > L.info.ea)) ∧
    (∀ old new, (redirectGotos root old new).subItems.map Item.info =
      root.subItems.map (fun y =>
        if y.info.op = .cit_goto ∧ y.info.target = old
        then { y.info with target := new } else y.info)) ∧
    (∀ lid cid lbl, (applyMove root lid cid lbl).subItems.map Item.info =
      root.subItems.map (fun y =>
        if y.info.id = cid then { y.info with label := lbl }
        else if y.info.id = lid then { y.info with label := -1 }
        else y.info)) ∧
    (∀ old base, ∀ x ∈ (convertGotos old root base).1.subItems,
      ((∃ y ∈ root.subItems,
          ¬(y.info.op = .cit_goto ∧ y.info.target = old) ∧
          x.info = y.info ∧ x.children.length = y.children.length) ∨
        (∃ y ∈ root.subItems, y.info.op = .cit_goto ∧ y.info.target = old ∧
          x.info = { y.info with op := .cit_return, target := -1 } ∧
          x.children.map (fun c => c.info.op) = [.cot_empty]) ∨
        (x.info.op = .cot_empty ∧ x.children = [])) ∧
      ¬(x.info.op = .cit_goto ∧ x.info.target = old)) := by
  refine ⟨?_, ?_, ?_, ?_, ?_⟩
  · intro B hB
    have hfs := (findSome_selectDest L.info.ea (ancestorBlocks root L)).2 B hB
    cases hsel : selectDest L.info.ea B.children with
    | none =>
      exfalso
      have := List.find?_some hB
      simp only [List.any_eq_true] at this
      rcases this with ⟨c, hc, hq⟩
      exact absurd (by simpa using hq)
        ((selectDest_none_iff L.info.ea B.children).mp hsel c hc)
    | some c =>
      have hspec := selectDest_some_spec hsel
      have hfd : findNewDestination root L = some c := by
        unfold findNewDestination
        rw [hfs, hsel]
      exact ⟨c, hfd, hspec.1, hspec.2.1, hspec.2.2, relocOutcome_of_some hfd⟩
  · constructor
    · intro hco
      cases hfd : findNewDestination root L with
      | none =>
        unfold findNewDestination at hfd
        exact (findSome_selectDest L.info.ea (ancestorBlocks root L)).1.mp hfd
      | some dest =>
        rw [relocOutcome_of_some hfd] at hco
        split at hco <;> cases hco
    · intro hall
      have hfd : findNewDestination root L = none := by
        unfold findNewDestination
        exact (findSome_selectDest L.info.ea (ancestorBlocks root L)).1.mpr hall
      exact relocOutcome_of_none hfd
  · intro old new
    exact mapInfo_infos _ root
  · intro lid cid lbl
    exact mapInfo_infos _ root
  · intro old base x hx
    refine ⟨convertGotos_infos old root base x hx, ?_⟩
    rcases convertGotos_infos old root base x hx with
      ⟨y, _, hny, hinfo, _⟩ | ⟨y, _, _, _, hinfo, _⟩ | ⟨hop, _⟩
    · rw [hinfo]
      exact hny
    · rw [hinfo]
      rintro ⟨hgoto, _⟩
      cases hgoto
    · rintro ⟨hgoto, _⟩
      rw [hop] at hgoto
      cases hgoto

/-- A body block whose labeled expression-statement has a later sibling. -/
def c5wTree : Item :=
  .node { id := 0, op := .cit_block, ea := 0 }
    [.node { id := 1, op := .cit_expr, label := 7, ea := 10 }
      [.node { id := 2, op := .cot_var, ea := 10 } []],
     .node { id := 3, op := .cit_return, ea := 20 }
       [.node { id := 4, op := .cot_empty, ea := 20 } []]]

def c5wLabeled : Item :=
  .node { id := 1, op := .cit_expr, label := 7, ea := 10 }
    [.node { id := 2, op := .cot_var, ea := 10 } []]

/-- Witness for the amended C5: the label moves to the later sibling. -/
theorem c5_relocation_amended_witness :
    (ancestorBlocks c5wTree c5wLabeled).find?
        (fun b => b.children.any (fun c => c.info.ea > c5wLabeled.info.ea))
      = some c5wTree ∧
    ∃ c, findNewDestination c5wTree c5wLabeled = some c ∧
      c ∈ c5wTree.children ∧ c.info.ea > c5wLabeled.info.ea ∧
      (∀ c2 ∈ c5wTree.children, c2.info.ea > c5wLabeled.info.ea →
        c.info.ea ≤ c2.info.ea) ∧
      relocOutcome c5wTree c5wLabeled =
        (if c.info.label ≠ -1
         then .redirectGotos c5wLabeled.info.label c.info.label
         else .moveLabel c.info.id c5wLabeled.info.label) :=
  ⟨rfl, (c5_relocation_amended c5wTree c5wLabeled).1 c5wTree rfl⟩

/-!
## Pruning termination measure

Every productive pruning pass strictly decreases
`size + gotoCount + doomedCount`: erasing an empty child removes a subtree;
converting a goto to a return adds one item but removes one goto; cleaning
up a doomed statement removes at least its own `doomedKind` tag.
-/

def measureOf (t : Item) : Nat :=
  t.size + t.countP (fun x => x.info.op = .cit_goto) +
    t.countP (fun x => doomedKind x.info.op)

def measureList (cs : List Item) : Nat :=
  Item.sizeList cs + countList (fun x => x.info.op = .cit_goto) cs +
    countList (fun x => doomedKind x.info.op) cs

theorem measureOf_eq (t : Item) :
    measureOf t = t.size + t.gotoCount + t.doomedCount := by
  rw [measureOf, gotoCount_eq_countP, doomedCount_eq_countP]

theorem measureList_nil : measureList [] = 0 := by
  simp [measureList, Item.sizeList, countList_nil]

theorem measureList_cons (c : Item) (cs : List Item) :
    measureList (c :: cs) = measureOf c + measureList cs := by
  simp only [measureList, measureOf, Item.sizeList, countList_cons]
  omega

theorem measureOf_node (d : NodeInfo) (cs : List Item) :
    measureOf (.node d cs) =
      1 + (if d.op = .cit_goto then 1 else 0) +
        (if doomedKind d.op then 1 else 0) + measureList cs := by
  simp only [measureOf, measureList, Item.size, countP_node, Item.info]
  by_cases hg : d.op = .cit_goto <;> by_cases hd : doomedKind d.op <;>
    simp [hg, hd] <;> omega

theorem measureOf_pos (t : Item) : 1 ≤ measureOf t := by
  have := size_pos t
  simp only [measureOf]
  omega

theorem size_mapInfo (f : NodeInfo → NodeInfo) (t : Item) :
    (mapInfo f t).size = t.size := by
  rw [← length_subItems, ← length_subItems, subItems_mapInfo, List.length_map]

theorem countP_mapInfo_of (f : NodeInfo → NodeInfo) (t : Item)
    (p : Item → Bool) (hp : ∀ x, p (mapInfo f x) = p x) :
    (mapInfo f t).countP p = t.countP p := by
  unfold Item.countP
  rw [subItems_mapInfo, List.filter_map, List.length_map]
  congr 1
  apply List.filter_congr
  intro x hx
  simpa [Function.comp] using hp x

theorem measureOf_mapInfo (f : NodeInfo → NodeInfo)
    (hop : ∀ d, (f d).op = d.op) (t : Item) :
    measureOf (mapInfo f t) = measureOf t := by
  unfold measureOf
  rw [size_mapInfo,
    countP_mapInfo_of f t (fun x => decide (x.info.op = .cit_goto))
      (fun x => by simp [info_mapInfo, hop]),
    countP_mapInfo_of f t (fun x => doomedKind x.info.op)
      (fun x => by simp [info_mapInfo, hop])]

/-- Well-formedness of a ctree for the termination bound: item identities
are pairwise distinct, and `cit_goto` items are leaves (as produced by the
decompiler). -/
def leafOk (t : Item) : Prop :=
  ∀ x ∈ t.subItems, x.info.op = .cit_goto → x.children.length = 0

def WfTree (t : Item) : Prop := t.idList.Nodup ∧ leafOk t

theorem leafOk_of_mem {t x : Item} (h : leafOk t) (hx : x ∈ t.subItems) :
    leafOk x :=
  fun y hy => h y (subItems_trans hx hy)

theorem leafOk_child {t c : Item} (h : leafOk t) (hc : c ∈ t.children) :
    leafOk c :=
  leafOk_of_mem h (mem_subItems_of_child hc)

def idsList (cs : List Item) : List Nat :=
  (Item.subItemsList cs).map (fun x => x.info.id)

theorem idList_node (d : NodeInfo) (cs : List Item) :
    (Item.node d cs).idList = d.id :: idsList cs := by
  simp [Item.idList, subItems_node, idsList, Item.info]

theorem idsList_nil : idsList [] = [] := rfl

theorem idsList_cons (c : Item) (cs : List Item) :
    idsList (c :: cs) = c.idList ++ idsList cs := by
  simp [idsList, Item.subItemsList, Item.idList]

theorem convertGotosList_measure_of (old : Int) (cs : List Item)
    (h : ∀ c ∈ cs, ∀ b, measureOf (convertGotos old c b).1 ≤ measureOf c) :
    ∀ base, measureList (convertGotosList old cs base).1 ≤ measureList cs := by
  induction cs with
  | nil => intro base; simp [convertGotosList]
  | cons c cs ih =>
    intro base
    unfold convertGotosList
    rw [measureList_cons, measureList_cons]
    have h1 := h c (by simp) base
    have h2 := ih (fun c2 hc2 b => h c2 (by simp [hc2]) b)
      (convertGotos old c base).2
    omega

theorem convertGotos_measure (old : Int) :
    ∀ (t : Item) (base : Nat),
      measureOf (convertGotos old t base).1 ≤ measureOf t := by
  intro t
  induction t using Item.strongInduction with
  | _ d cs ih =>
    intro base
    unfold convertGotos
    by_cases hg : d.op = .cit_goto ∧ d.target = old
    · rw [if_pos hg]
      simp only
      rw [measureOf_node, measureOf_node, measureList_cons, measureOf_node,
        measureList_nil]
      simp only [hg.1]
      simp [doomedKind]
    · rw [if_neg hg]
      simp only
      rw [measureOf_node, measureOf_node]
      have := convertGotosList_measure_of old cs
        (fun c hc b => ih c hc b) base
      omega

theorem convertGotosList_forward (old : Int) :
    ∀ (cs : List Item) (base : Nat) (c : Item), c ∈ cs →
      ∃ b, (convertGotos old c b).1 ∈ (convertGotosList old cs base).1 := by
  intro cs
  induction cs with
  | nil => intro base c h; cases h
  | cons c0 cs ih =>
    intro base c h
    unfold convertGotosList
    rcases List.mem_cons.mp h with rfl | h
    · exact ⟨base, by simp⟩
    · rcases ih (convertGotos old c0 base).2 c h with ⟨b, hb⟩
      exact ⟨b, by simp [hb]⟩

theorem convertGotos_keeps (old : Int) :
    ∀ (t : Item) (base : Nat), leafOk t →
      ∀ y ∈ t.subItems, y.info.op ≠ .cit_goto →
        ∃ x ∈ (convertGotos old t base).1.subItems, x.info = y.info := by
  intro t
  induction t using Item.strongInduction with
  | _ d cs ih =>
    intro base hleaf y hy hop
    unfold convertGotos
    by_cases hg : d.op = .cit_goto ∧ d.target = old
    · rw [if_pos hg]
      have hcs : cs.length = 0 :=
        hleaf (.node d cs) (self_mem_subItems _) hg.1
      have hcs2 : cs = [] := List.length_eq_zero.mp hcs
      subst hcs2
      rw [subItems_node] at hy
      simp only [Item.subItemsList, List.mem_singleton] at hy
      subst hy
      exact absurd hg.1 hop
    · rw [if_neg hg]
      simp only
      rw [subItems_node] at hy
      rcases List.mem_cons.mp hy with rfl | hy
      · exact ⟨_, self_mem_subItems _, rfl⟩
      · rcases mem_subItemsList.mp hy with ⟨c, hc, hyc⟩
        rcases convertGotosList_forward old cs base c hc with ⟨b, hb⟩
        rcases ih c hc b (leafOk_child hleaf hc) y hyc hop with ⟨x, hx, he⟩
        refine ⟨x, ?_, he⟩
        exact mem_subItems_trans (t := .node d (convertGotosList old cs base).1)
          hb hx

theorem convertGotos_leafOk (old : Int) (t : Item) (base : Nat)
    (h : leafOk t) : leafOk (convertGotos old t base).1 := by
  intro x hx hxop
  rcases convertGotos_infos old t base x hx with
    ⟨y, hy, _, hinfo, hlen⟩ | ⟨y, _, _, _, hinfo, _⟩ | ⟨hop, hch⟩
  · rw [hlen, h y hy (by rw [← hinfo]; exact hxop)]
  · rw [hinfo] at hxop
    cases hxop
  · rw [hop] at hxop
    cases hxop

/-- The fresh-identity bundle for goto conversion: ids stay duplicate-free,
the id counter only grows, result ids are bounded by the final counter, and
every result id is an original id or a fresh one at or above the initial
counter. -/
def CvtIds (ids0 ids1 : List Nat) (b0 b1 : Nat) : Prop :=
  ids1.Nodup ∧ b0 ≤ b1 ∧ (∀ j ∈ ids1, j < b1) ∧
    (∀ j ∈ ids1, j ∈ ids0 ∨ b0 ≤ j)

theorem convertGotosList_ids_of (old : Int) (cs : List Item)
    (h : ∀ c ∈ cs, ∀ b, (∀ j ∈ c.idList, j < b) → c.idList.Nodup →
      CvtIds c.idList (convertGotos old c b).1.idList b
        (convertGotos old c b).2) :
    ∀ base, (∀ j ∈ idsList cs, j < base) → (idsList cs).Nodup →
      CvtIds (idsList cs) (idsList (convertGotosList old cs base).1) base
        (convertGotosList old cs base).2 := by
  induction cs with
  | nil =>
    intro base hb hn
    exact ⟨by simp [convertGotosList, idsList_nil], le_rfl,
      by simp [convertGotosList, idsList_nil],
      by simp [convertGotosList, idsList_nil]⟩
  | cons c cs ih =>
    intro base hb hn
    rw [idsList_cons] at hb hn
    rw [List.nodup_append] at hn
    rcases hn with ⟨hn1, hn2, hdisj⟩
    have hb1 : ∀ j ∈ c.idList, j < base := fun j hj => hb j (by simp [hj])
    have hb2 : ∀ j ∈ idsList cs, j < base := fun j hj => hb j (by simp [hj])
    rcases h c (by simp) base hb1 hn1 with ⟨q1, q2, q3, q4⟩
    have hb2a : ∀ j ∈ idsList cs, j < (convertGotos old c base).2 :=
      fun j hj => lt_of_lt_of_le (hb2 j hj) q2
    rcases ih (fun c2 hc2 b hbb hnn => h c2 (by simp [hc2]) b hbb hnn)
      (convertGotos old c base).2 hb2a hn2 with ⟨r1, r2, r3, r4⟩
    unfold convertGotosList
    simp only [idsList_cons]
    refine ⟨?_, le_trans q2 r2, ?_, ?_⟩
    · rw [List.nodup_append]
      refine ⟨q1, r1, ?_⟩
      intro j hj1 hj2
      rcases q4 j hj1 with ho1 | ho1 <;> rcases r4 j hj2 with ho2 | ho2
      · exact hdisj ho1 ho2
      · have := hb1 j ho1
        omega
      · have := hb2 j ho2
        have := q3 j hj1
        omega
      · have := q3 j hj1
        omega
    · intro j hj
      rcases List.mem_append.mp hj with hj | hj
      · exact lt_of_lt_of_le (q3 j hj) r2
      · exact r3 j hj
    · intro j hj
      rcases List.mem_append.mp hj with hj | hj
      · rcases q4 j hj with ho | ho
        · exact Or.inl (by simp [ho])
        · exact Or.inr ho
      · rcases r4 j hj with ho | ho
        · exact Or.inl (by simp [ho])
        · exact Or.inr (le_trans q2 ho)

theorem convertGotos_ids (old : Int) :
    ∀ (t : Item) (base : Nat), (∀ j ∈ t.idList, j < base) → t.idList.Nodup →
      CvtIds t.idList (convertGotos old t base).1.idList base
        (convertGotos old t base).2 := by
  intro t
  induction t using Item.strongInduction with
  | _ d cs ih =>
    intro base hb hn
    rw [idList_node] at hb hn
    have hdb : d.id < base := hb d.id (by simp)
    unfold convertGotos
    by_cases hg : d.op = .cit_goto ∧ d.target = old
    · rw [if_pos hg]
      simp only [idList_node, idsList_cons, idsList_nil]
      refine ⟨?_, by omega, ?_, ?_⟩
      · simp
        omega
      · intro j hj
        simp at hj
        rcases hj with rfl | rfl <;> omega
      · intro j hj
        simp at hj
        rcases hj with rfl | rfl
        · exact Or.inl (by simp)
        · exact Or.inr le_rfl
    · rw [if_neg hg]
      simp only [idList_node]
      have hn2 := List.Nodup.of_cons hn
      have hdn : d.id ∉ idsList cs := (List.nodup_cons.mp hn).1
      have hbl : ∀ j ∈ idsList cs, j < base := fun j hj => hb j (by simp [hj])
      rcases convertGotosList_ids_of old cs (fun c hc b hbb hnn =>
        ih c hc b hbb hnn) base hbl hn2 with ⟨r1, r2, r3, r4⟩
      refine ⟨?_, r2, ?_, ?_⟩
      · rw [List.nodup_cons]
        refine ⟨?_, r1⟩
        intro hmem
        rcases r4 d.id hmem with ho | ho
        · exact hdn ho
        · omega
      · intro j hj
        rcases List.mem_cons.mp hj with rfl | hj
        · omega
        · exact r3 j hj
      · intro j hj
        rcases List.mem_cons.mp hj with rfl | hj
        · exact Or.inl (by simp)
        · rcases r4 j hj with ho | ho
          · exact Or.inl (by simp [ho])
          · exact Or.inr ho

theorem measureList_eq_sum (cs : List Item) :
    measureList cs = (cs.map measureOf).sum := by
  induction cs with
  | nil => simp [measureList_nil]
  | cons c cs ih => simp [measureList_cons, ih]

theorem measureList_le_of_sublist {cs1 cs2 : List Item}
    (h : cs1.Sublist cs2) : measureList cs1 ≤ measureList cs2 := by
  induction h with
  | slnil => exact le_rfl
  | cons c h ih => rw [measureList_cons]; omega
  | cons₂ c h ih => rw [measureList_cons, measureList_cons]; omega

theorem measureList_filter_lt {cs : List Item} {p : Item → Bool} {c : Item}
    (hc : c ∈ cs) (hp : p c = false) :
    measureList (cs.filter p) < measureList cs := by
  induction cs with
  | nil => cases hc
  | cons c0 cs ih =>
    rcases List.mem_cons.mp hc with rfl | hc
    · rw [List.filter_cons, hp]
      simp only [Bool.false_eq_true, if_false]
      rw [measureList_cons]
      have h1 := measureList_le_of_sublist (List.filter_sublist (p := p) cs)
      have h2 := measureOf_pos c
      omega
    · rw [List.filter_cons, measureList_cons]
      split
      · rw [measureList_cons]
        have := ih hc
        omega
      · have := ih hc
        have := measureOf_pos c0
        omega

theorem sizeList_pos_of_mem {x : Item} {cs : List Item}
    (h : x ∈ Item.subItemsList cs) : 1 ≤ Item.sizeList cs := by
  rcases mem_subItemsList.mp h with ⟨c, hc, _⟩
  have h1 := size_lt_of_mem hc
  have h2 := size_pos c
  omega

theorem measureList_ge_sizeList (cs : List Item) :
    Item.sizeList cs ≤ measureList cs := by
  simp only [measureList]
  omega

theorem measureOf_ge_two {t : Item}
    (h : ∃ x ∈ t.subItems, doomedKind x.info.op = true) : 2 ≤ measureOf t := by
  cases t with
  | node d cs =>
    rw [measureOf_node]
    rcases h with ⟨x, hx, hdx⟩
    rw [subItems_node] at hx
    rcases List.mem_cons.mp hx with rfl | hx
    · simp only [Item.info] at hdx
      rw [hdx]
      simp
      omega
    · have h1 := sizeList_pos_of_mem hx
      have h2 := measureList_ge_sizeList cs
      omega

theorem mem_map_idList {t x : Item} (h : x ∈ t.subItems) :
    x.info.id ∈ t.idList := List.mem_map_of_mem _ h

theorem not_id_of_nodup {d : NodeInfo} {cs : List Item}
    (hn : (Item.node d cs).idList.Nodup) :
    ∀ x ∈ Item.subItemsList cs, x.info.id ≠ d.id := by
  intro x hx he
  rw [idList_node] at hn
  rcases List.nodup_cons.mp hn with ⟨hni, _⟩
  exact hni (he ▸ List.mem_map_of_mem _ hx)

theorem subItems_sublist_of_mem {c : Item} {cs : List Item} (h : c ∈ cs) :
    c.subItems.Sublist (Item.subItemsList cs) := by
  induction cs with
  | nil => cases h
  | cons c0 cs ih =>
    rcases List.mem_cons.mp h with rfl | h
    · exact List.sublist_append_left _ _
    · exact (ih h).trans (List.sublist_append_right _ _)

theorem idList_nodup_of_child {d : NodeInfo} {cs : List Item} {c : Item}
    (hn : (Item.node d cs).idList.Nodup) (hc : c ∈ cs) :
    c.idList.Nodup := by
  rw [idList_node] at hn
  have h1 : c.idList.Sublist (idsList cs) :=
    List.Sublist.map _ (subItems_sublist_of_mem hc)
  exact h1.nodup (List.Nodup.of_cons hn)


theorem replaceByEmptyList_eq_map (sid : Nat) (cs : List Item) :
    replaceByEmptyList cs sid = cs.map (fun c => replaceByEmpty c sid) := by
  induction cs with
  | nil => rfl
  | cons c cs ih => simp [replaceByEmptyList, ih]

theorem measureList_map_le_of (g : Item → Item) (cs : List Item)
    (h : ∀ c ∈ cs, measureOf (g c) ≤ measureOf c) :
    measureList (cs.map g) ≤ measureList cs := by
  induction cs with
  | nil => simp
  | cons c cs ih =>
    simp only [List.map_cons, measureList_cons]
    have h1 := h c (by simp)
    have h2 := ih (fun c2 hc2 => h c2 (by simp [hc2]))
    omega

theorem measureList_map_lt_of (g : Item → Item) (cs : List Item)
    (h : ∀ c ∈ cs, measureOf (g c) ≤ measureOf c)
    (hw : ∃ c ∈ cs, measureOf (g c) < measureOf c) :
    measureList (cs.map g) < measureList cs := by
  induction cs with
  | nil => simp at hw
  | cons c cs ih =>
    simp only [List.map_cons, measureList_cons]
    rcases hw with ⟨c2, hc2, hlt⟩
    rcases List.mem_cons.mp hc2 with rfl | hc2
    · have h2 := measureList_map_le_of g cs (fun c3 hc3 => h c3 (by simp [hc3]))
      omega
    · have h1 := h c (by simp)
      have h2 := ih (fun c3 hc3 => h c3 (by simp [hc3])) ⟨c2, hc2, hlt⟩
      omega

theorem replaceByEmpty_meas_le :
    ∀ (t : Item) (sid : Nat),
      measureOf (replaceByEmpty t sid) ≤ measureOf t := by
  intro t
  induction t using Item.strongInduction with
  | _ d cs ih =>
    intro sid
    unfold replaceByEmpty
    split
    · rw [measureOf_node, measureOf_node, measureList_nil]
      have := measureList_ge_sizeList cs
      simp [doomedKind]
      omega
    · rw [replaceByEmptyList_eq_map, measureOf_node, measureOf_node]
      have := measureList_map_le_of (fun c => replaceByEmpty c sid) cs
        (fun c hc => ih c hc sid)
      omega

theorem replaceByEmpty_meas_lt :
    ∀ (t : Item) (sid : Nat),
      (∃ x ∈ t.subItems, x.info.id = sid ∧ doomedKind x.info.op = true) →
      measureOf (replaceByEmpty t sid) < measureOf t := by
  intro t
  induction t using Item.strongInduction with
  | _ d cs ih =>
    intro sid hw
    unfold replaceByEmpty
    split
    · rename_i hid
      have h2 : 2 ≤ measureOf (.node d cs) := by
        rcases hw with ⟨x, hx, _, hdx⟩
        exact measureOf_ge_two ⟨x, hx, hdx⟩
      have h1 : measureOf (Item.node
          { id := d.id, op := .cit_empty, ea := d.ea } []) = 1 := by
        rw [measureOf_node, measureList_nil]
        simp [doomedKind]
      omega
    · rename_i hid
      rcases hw with ⟨x, hx, hxi, hdx⟩
      rw [subItems_node] at hx
      rcases List.mem_cons.mp hx with rfl | hx
      · exact absurd hxi (by simpa using hid)
      · rcases mem_subItemsList.mp hx with ⟨c, hc, hxc⟩
        rw [replaceByEmptyList_eq_map, measureOf_node, measureOf_node]
        have hlt := measureList_map_lt_of (fun c2 => replaceByEmpty c2 sid) cs
          (fun c2 hc2 => replaceByEmpty_meas_le c2 sid)
          ⟨c, hc, ih c hc sid ⟨x, hxc, hxi, hdx⟩⟩
        omega

theorem replaceByEmpty_shape :
    ∀ (t : Item) (sid : Nat), ∀ x ∈ (replaceByEmpty t sid).subItems,
      (∃ y ∈ t.subItems, x.info = y.info ∧
        x.children.length ≤ y.children.length) ∨
      (x.info.op = .cit_empty ∧ x.children.length = 0) := by
  intro t
  induction t using Item.strongInduction with
  | _ d cs ih =>
    intro sid x hx
    unfold replaceByEmpty at hx
    split at hx
    · rw [subItems_node] at hx
      simp only [Item.subItemsList, List.mem_singleton] at hx
      subst hx
      exact Or.inr ⟨rfl, rfl⟩
    · rw [subItems_node] at hx
      rcases List.mem_cons.mp hx with rfl | hx
      · refine Or.inl ⟨.node d cs, self_mem_subItems _, rfl, ?_⟩
        simp [Item.children, replaceByEmptyList_eq_map]
      · rcases mem_subItemsList.mp hx with ⟨c2, hc2, hxc⟩
        rw [replaceByEmptyList_eq_map] at hc2
        rcases List.mem_map.mp hc2 with ⟨c, hc, rfl⟩
        rcases ih c hc sid x hxc with ⟨y, hy, rest⟩ | h2
        · exact Or.inl ⟨y, mem_subItems_trans hc hy, rest⟩
        · exact Or.inr h2

theorem idsList_map_sublist_of (g : Item → Item) (cs : List Item)
    (h : ∀ c ∈ cs, (g c).idList.Sublist c.idList) :
    (idsList (cs.map g)).Sublist (idsList cs) := by
  induction cs with
  | nil => simp [idsList_nil]
  | cons c cs ih =>
    simp only [List.map_cons, idsList_cons]
    exact (h c (by simp)).append (ih (fun c2 hc2 => h c2 (by simp [hc2])))

theorem replaceByEmpty_ids_sublist :
    ∀ (t : Item) (sid : Nat),
      (replaceByEmpty t sid).idList.Sublist t.idList := by
  intro t
  induction t using Item.strongInduction with
  | _ d cs ih =>
    intro sid
    unfold replaceByEmpty
    split
    · rw [idList_node, idList_node, idsList_nil]
      exact (List.nil_sublist _).cons₂ _
    · rw [idList_node, idList_node, replaceByEmptyList_eq_map]
      exact (idsList_map_sublist_of _ cs (fun c hc => ih c hc sid)).cons₂ _

theorem eraseChildList_eq_map (bid cid : Nat) (cs : List Item) :
    eraseChildList cs bid cid = cs.map (fun c => eraseChild c bid cid) := by
  induction cs with
  | nil => rfl
  | cons c cs ih => simp [eraseChildList, ih]

theorem eraseChild_meas_le :
    ∀ (t : Item) (bid cid : Nat),
      measureOf (eraseChild t bid cid) ≤ measureOf t := by
  intro t
  induction t using Item.strongInduction with
  | _ d cs ih =>
    intro bid cid
    unfold eraseChild
    split
    · rw [measureOf_node, measureOf_node]
      have := measureList_le_of_sublist
        (List.filter_sublist (p := fun c => c.info.id ≠ cid) cs)
      omega
    · rw [eraseChildList_eq_map, measureOf_node, measureOf_node]
      have := measureList_map_le_of (fun c => eraseChild c bid cid) cs
        (fun c hc => ih c hc bid cid)
      omega

theorem eraseChild_meas_lt :
    ∀ (t : Item) (bid cid : Nat), t.idList.Nodup →
      (∃ B ∈ t.subItems, B.info.id = bid ∧
        ∃ c ∈ B.children, c.info.id = cid) →
      measureOf (eraseChild t bid cid) < measureOf t := by
  intro t
  induction t using Item.strongInduction with
  | _ d cs ih =>
    intro bid cid hn hw
    unfold eraseChild
    split
    · rename_i hid
      rcases hw with ⟨B, hB, hBi, c, hc, hci⟩
      rw [subItems_node] at hB
      rcases List.mem_cons.mp hB with rfl | hB
      · rw [measureOf_node, measureOf_node]
        have hlt : measureList (cs.filter (fun c => c.info.id ≠ cid)) <
            measureList cs := by
          refine measureList_filter_lt (c := c) (by simpa [Item.children] using hc) ?_
          simp [hci]
        omega
      · exact absurd (hBi.trans hid.symm) (not_id_of_nodup hn B hB)
    · rename_i hid
      rcases hw with ⟨B, hB, hBi, c, hc, hci⟩
      rw [subItems_node] at hB
      rcases List.mem_cons.mp hB with rfl | hB
      · exact absurd hBi (by simpa [Item.info] using hid)
      · rcases mem_subItemsList.mp hB with ⟨c2, hc2, hBc⟩
        rw [eraseChildList_eq_map, measureOf_node, measureOf_node]
        have hlt := measureList_map_lt_of (fun c3 => eraseChild c3 bid cid) cs
          (fun c3 hc3 => eraseChild_meas_le c3 bid cid)
          ⟨c2, hc2, ih c2 hc2 bid cid (idList_nodup_of_child hn hc2)
            ⟨B, hBc, hBi, c, hc, hci⟩⟩
        omega

theorem eraseChild_shape :
    ∀ (t : Item) (bid cid : Nat), ∀ x ∈ (eraseChild t bid cid).subItems,
      ∃ y ∈ t.subItems, x.info = y.info ∧
        x.children.length ≤ y.children.length := by
  intro t
  induction t using Item.strongInduction with
  | _ d cs ih =>
    intro bid cid x hx
    unfold eraseChild at hx
    split at hx
    · rw [subItems_node] at hx
      rcases List.mem_cons.mp hx with rfl | hx
      · refine ⟨.node d cs, self_mem_subItems _, rfl, ?_⟩
        simpa [Item.children] using
          (List.filter_sublist (p := fun c => c.info.id ≠ cid) cs).length_le
      · rcases mem_subItemsList.mp hx with ⟨c2, hc2, hxc⟩
        have hc2m : c2 ∈ cs := List.mem_of_mem_filter hc2
        exact ⟨x, mem_subItems_trans hc2m hxc, rfl, le_rfl⟩
    · rw [subItems_node] at hx
      rcases List.mem_cons.mp hx with rfl | hx
      · refine ⟨.node d cs, self_mem_subItems _, rfl, ?_⟩
        simp [Item.children, eraseChildList_eq_map]
      · rcases mem_subItemsList.mp hx with ⟨c2, hc2, hxc⟩
        rw [eraseChildList_eq_map] at hc2
        rcases List.mem_map.mp hc2 with ⟨c, hc, rfl⟩
        rcases ih c hc bid cid x hxc with ⟨y, hy, rest⟩
        exact ⟨y, mem_subItems_trans hc hy, rest⟩

theorem sublist_subItemsList {cs1 cs2 : List Item} (h : cs1.Sublist cs2) :
    (Item.subItemsList cs1).Sublist (Item.subItemsList cs2) := by
  induction h with
  | slnil => exact List.Sublist.refl _
  | cons c h ih =>
    exact ih.trans (List.sublist_append_right _ _)
  | cons₂ c h ih =>
    exact (List.Sublist.refl c.subItems).append ih

theorem eraseChild_ids_sublist :
    ∀ (t : Item) (bid cid : Nat),
      (eraseChild t bid cid).idList.Sublist t.idList := by
  intro t
  induction t using Item.strongInduction with
  | _ d cs ih =>
    intro bid cid
    unfold eraseChild
    split
    · rw [idList_node, idList_node]
      refine List.Sublist.cons₂ _ ?_
      exact List.Sublist.map _ (sublist_subItemsList (List.filter_sublist cs))
    · rw [idList_node, idList_node, eraseChildList_eq_map]
      exact (idsList_map_sublist_of _ cs (fun c hc => ih c hc bid cid)).cons₂ _

theorem mapInfo_children (f : NodeInfo → NodeInfo) (t : Item) :
    (mapInfo f t).children = t.children.map (mapInfo f) := by
  cases t with
  | node d cs =>
    simp [mapInfo, Item.children, mapInfoList_eq_map]

theorem mapInfo_idList (f : NodeInfo → NodeInfo)
    (hid : ∀ d, (f d).id = d.id) (t : Item) :
    (mapInfo f t).idList = t.idList := by
  unfold Item.idList
  rw [subItems_mapInfo, List.map_map]
  apply List.map_congr_left
  intro x hx
  simp [Function.comp, info_mapInfo, hid]

theorem mapInfo_leafOk (f : NodeInfo → NodeInfo)
    (hop : ∀ d, (f d).op = d.op) (t : Item) (h : leafOk t) :
    leafOk (mapInfo f t) := by
  intro x hx hxop
  rw [subItems_mapInfo] at hx
  rcases List.mem_map.mp hx with ⟨y, hy, rfl⟩
  rw [info_mapInfo, hop] at hxop
  rw [mapInfo_children, List.length_map]
  exact h y hy hxop

theorem mapInfo_keeps (f : NodeInfo → NodeInfo)
    (hid : ∀ d, (f d).id = d.id) (hop : ∀ d, (f d).op = d.op) (t : Item)
    (sid : Nat)
    (h : ∃ x ∈ t.subItems, x.info.id = sid ∧ doomedKind x.info.op = true) :
    ∃ x ∈ (mapInfo f t).subItems,
      x.info.id = sid ∧ doomedKind x.info.op = true := by
  rcases h with ⟨x, hx, hxi, hxd⟩
  refine ⟨mapInfo f x, ?_, ?_, ?_⟩
  · rw [subItems_mapInfo]
    exact List.mem_map_of_mem _ hx
  · rw [info_mapInfo, hid]
    exact hxi
  · rw [info_mapInfo, hop]
    exact hxd

theorem le_foldl_max (l : List Nat) :
    ∀ a, a ≤ l.foldl Nat.max a ∧ ∀ x ∈ l, x ≤ l.foldl Nat.max a := by
  induction l with
  | nil => intro a; simp
  | cons b l ih =>
    intro a
    simp only [List.foldl_cons]
    rcases ih (Nat.max a b) with ⟨h1, h2⟩
    refine ⟨le_trans (Nat.le_max_left a b) h1, ?_⟩
    intro x hx
    rcases List.mem_cons.mp hx with rfl | hx
    · exact le_trans (Nat.le_max_right a x) h1
    · exact h2 x hx

theorem lt_maxId_succ (t : Item) : ∀ j ∈ t.idList, j < t.maxId + 1 := by
  intro j hj
  have := (le_foldl_max t.idList 0).2 j hj
  unfold Item.maxId
  omega

theorem doomed_ne_goto : ∀ op : ItemOp, doomedKind op = true →
    op ≠ .cit_goto := by
  intro op h he
  subst he
  simp [doomedKind] at h

/-- The bundle of facts the termination argument needs about the
label-cleanup loop: it never increases the measure, keeps gotos leaves,
keeps identities duplicate-free, and keeps the doomed statement (identified
by id and a `doomedKind` op) present. -/
theorem cleanupLabels_props :
    ∀ (fuel : Nat) (root : Item) (did : Nat), leafOk root →
      root.idList.Nodup →
      measureOf (cleanupLabels root did fuel) ≤ measureOf root ∧
      leafOk (cleanupLabels root did fuel) ∧
      (cleanupLabels root did fuel).idList.Nodup ∧
      (∀ sid, (∃ x ∈ root.subItems, x.info.id = sid ∧
          doomedKind x.info.op = true) →
        ∃ x ∈ (cleanupLabels root did fuel).subItems,
          x.info.id = sid ∧ doomedKind x.info.op = true) := by
  intro fuel
  induction fuel with
  | zero =>
    intro root did hleaf hn
    exact ⟨le_rfl, hleaf, hn, fun sid h => h⟩
  | succ fuel ih =>
    intro root did hleaf hn
    unfold cleanupLabels
    cases hfb : findById root did with
    | none =>
      simp only [hfb]
      exact ⟨le_rfl, hleaf, hn, fun sid h => h⟩
    | some dsub =>
      simp only [hfb]
      cases hfl : dsub.subItems.find? (fun x => x.info.label ≠ -1) with
      | none =>
        simp only [hfl]
        exact ⟨le_rfl, hleaf, hn, fun sid h => h⟩
      | some L =>
        simp only [hfl]
        cases hro : relocOutcome root L with
        | moveLabel cid lbl =>
          simp only [hro]
          have hop : ∀ d : NodeInfo,
              ((fun d => if d.id = cid then { d with label := lbl }
                else if d.id = L.info.id then { d with label := -1 }
                else d) d).op = d.op := by
            intro d
            show (if d.id = cid then { d with label := lbl }
              else if d.id = L.info.id then { d with label := -1 }
              else d).op = d.op
            split
            · rfl
            · split <;> rfl
          have hid : ∀ d : NodeInfo,
              ((fun d => if d.id = cid then { d with label := lbl }
                else if d.id = L.info.id then { d with label := -1 }
                else d) d).id = d.id := by
            intro d
            show (if d.id = cid then { d with label := lbl }
              else if d.id = L.info.id then { d with label := -1 }
              else d).id = d.id
            split
            · rfl
            · split <;> rfl
          have hm2 : measureOf (applyMove root L.info.id cid lbl) =
              measureOf root := by
            unfold applyMove
            exact measureOf_mapInfo _ hop root
          have hlf : leafOk (applyMove root L.info.id cid lbl) := by
            unfold applyMove
            exact mapInfo_leafOk _ hop root hleaf
          have hnd : (applyMove root L.info.id cid lbl).idList.Nodup := by
            unfold applyMove
            rw [mapInfo_idList _ hid]
            exact hn
          rcases ih (applyMove root L.info.id cid lbl) did hlf hnd with
            ⟨q1, q2, q3, q4⟩
          refine ⟨?_, q2, q3, ?_⟩
          · omega
          · intro sid hex
            refine q4 sid ?_
            unfold applyMove
            exact mapInfo_keeps _ hid hop root sid hex
        | redirectGotos old new =>
          simp only [hro]
          have hop : ∀ d : NodeInfo,
              ((fun d => if d.op = .cit_goto ∧ d.target = old
                then { d with target := new } else d) d).op = d.op := by
            intro d
            show (if d.op = .cit_goto ∧ d.target = old
              then { d with target := new } else d).op = d.op
            split <;> rfl
          have hid : ∀ d : NodeInfo,
              ((fun d => if d.op = .cit_goto ∧ d.target = old
                then { d with target := new } else d) d).id = d.id := by
            intro d
            show (if d.op = .cit_goto ∧ d.target = old
              then { d with target := new } else d).id = d.id
            split <;> rfl
          refine ⟨?_, mapInfo_leafOk _ hop root hleaf, ?_, ?_⟩
          · unfold redirectGotos
            rw [measureOf_mapInfo _ hop]
          · unfold redirectGotos
            rw [mapInfo_idList _ hid]
            exact hn
          · intro sid hex
            exact mapInfo_keeps _ hid hop root sid hex
        | convertGotos old =>
          simp only [hro]
          have hb := lt_maxId_succ root
          rcases convertGotos_ids old root (root.maxId + 1) hb hn with
            ⟨q1, _, _, _⟩
          refine ⟨convertGotos_measure old root _,
            convertGotos_leafOk old root _ hleaf, q1, ?_⟩
          intro sid hex
          rcases hex with ⟨x, hx, hxi, hxd⟩
          rcases convertGotos_keeps old root (root.maxId + 1) hleaf x hx
            (doomed_ne_goto _ hxd) with ⟨y, hy, he⟩
          exact ⟨y, hy, by rw [he]; exact hxi, by rw [he]; exact hxd⟩

theorem doomed_of_not : ∀ op : ItemOp, sevenKind op = false →
    isExprOp op = false → op ≠ .cit_block → doomedKind op = true := by
  intro op h1 h2 h3
  cases op <;> simp_all [sevenKind, isExprOp, doomedKind]

theorem leafOk_of_shape {t t2 : Item} (h : leafOk t)
    (hs : ∀ x ∈ t2.subItems,
      (∃ y ∈ t.subItems, x.info = y.info ∧
        x.children.length ≤ y.children.length) ∨
      (x.info.op = .cit_empty ∧ x.children.length = 0)) : leafOk t2 := by
  intro x hx hxop
  rcases hs x hx with ⟨y, hy, hinfo, hlen⟩ | ⟨hop2, hlen⟩
  · have h2 := h y hy (by rw [← hinfo]; exact hxop)
    omega
  · exact hlen

/-- Every mutation a pruning pass performs strictly shrinks the measure and
preserves well-formedness. -/
theorem applyPrune_decreases (legit : List Nat) (lf : Nat) (t : Item)
    (hwf : WfTree t) (a : PruneAction)
    (h : findPruneAction legit t = some a) :
    measureOf (applyPruneAction lf t a) < measureOf t ∧
    WfTree (applyPruneAction lf t a) := by
  rcases hwf with ⟨hn, hleaf⟩
  cases a with
  | eraseEmpty bid cid =>
    rcases findPruneAction_cases legit t _ h with
      ⟨B, hB, hop2, c, hfind, he⟩ | ⟨S, _, _, _, _, _, he⟩
    · injection he with h1 h2
      have hwit : ∃ B2 ∈ t.subItems, B2.info.id = bid ∧
          ∃ c2 ∈ B2.children, c2.info.id = cid :=
        ⟨B, hB, h1.symm, c, List.mem_of_find?_eq_some hfind, h2.symm⟩
      refine ⟨eraseChild_meas_lt t bid cid hn hwit, ?_, ?_⟩
      · exact (eraseChild_ids_sublist t bid cid).nodup hn
      · exact leafOk_of_shape hleaf
          (fun x hx => Or.inl (eraseChild_shape t bid cid x hx))
    · cases he
  | cleanupStmt sid =>
    rcases findPruneAction_cases legit t _ h with
      ⟨B, hB, hop2, c, hfind, he⟩ | ⟨S, hS, h7, hexp, hnb, hleg, he⟩
    · cases he
    · injection he with h1
      have hdk : doomedKind S.info.op = true := doomed_of_not _ h7 hexp hnb
      have hwit : ∃ x ∈ t.subItems, x.info.id = sid ∧
          doomedKind x.info.op = true := ⟨S, hS, h1.symm, hdk⟩
      rcases cleanupLabels_props lf t sid hleaf hn with ⟨q1, q2, q3, q4⟩
      have hwit2 := q4 sid hwit
      refine ⟨?_, ?_, ?_⟩
      · calc measureOf (applyPruneAction lf t (.cleanupStmt sid))
            < measureOf (cleanupLabels t sid lf) :=
              replaceByEmpty_meas_lt _ sid hwit2
          _ ≤ measureOf t := q1
      · exact (replaceByEmpty_ids_sublist _ sid).nodup q3
      · exact leafOk_of_shape q2 (replaceByEmpty_shape _ sid)

theorem pruneLoop_converges :
    ∀ (fuel : Nat) (legit : List Nat) (lf : Nat) (t : Item), WfTree t →
      measureOf t + 1 ≤ fuel → (pruneLoop legit lf fuel t).2 = true := by
  intro fuel
  induction fuel with
  | zero =>
    intro legit lf t hwf hle
    omega
  | succ fuel ih =>
    intro legit lf t hwf hle
    unfold pruneLoop
    simp only [prunePass]
    cases hfa : findPruneAction legit t with
    | none => rfl
    | some a =>
      simp only
      have hd := applyPrune_decreases legit lf t hwf a hfa
      exact ih legit lf _ hd.2 (by omega)

/-- A one-item function body: a single `cit_break` statement. -/
def c8Tree : Item := .node { id := 0, op := .cit_break } []

/-- C8 counterexample.  On a tree of one item the marking loop needs two
full passes (the first marks the break statement, the second finds nothing
new), so "a number of full passes bounded by the number of nodes in the
tree" fails: after 1 = (number of nodes) passes a new legitimacy mark was
still being found. -/
theorem c8_counterexample :
    c8Tree.size = 1 ∧
    (markLoop (fun s => s) c8Tree 1 (initMarkState [])).newFound = true ∧
    (markLoop (fun s => s) c8Tree 2 (initMarkState [])).newFound = false :=
  ⟨rfl, rfl, rfl⟩

/-- C8 as amended.  Both outer fixed-point loops terminate on well-formed
trees: the marking loop stops after a complete pass that adds no new
legitimacy mark, within (number of items) + 1 full passes; the pruning loop
stops after a complete pass that performs no deletion, within
(number of items) + (number of gotos) + (number of compound/expression
statements) + 1 full passes — these are the very pass budgets `Detox`
runs its loops with. -/
theorem c8_loops_terminate (tr : String → String) (root : Item)
    (isArg : List Bool) (legit : List Nat) (lf : Nat) (hwf : WfTree root) :
    (markLoop tr root (root.size + 1) (initMarkState isArg)).newFound
      = false ∧
    (pruneLoop legit lf
      (root.size + root.gotoCount + root.doomedCount + 1) root).2 = true := by
  constructor
  · refine markLoop_converges tr root hwf.1 (root.size + 1)
      (initMarkState isArg) (by simp [initMarkState]) ?_ ?_
    · intro x hx
      simp [initMarkState] at hx
    · rw [length_idList]
      simp [initMarkState]
  · refine pruneLoop_converges _ legit lf root hwf ?_
    rw [measureOf_eq]

/-- Witness for the amended C8 on a concrete well-formed body. -/
theorem c8_loops_terminate_witness :
    WfTree asmTree ∧
    (markLoop (fun s => s) asmTree (asmTree.size + 1)
      (initMarkState [])).newFound = false ∧
    (pruneLoop [] 5
      (asmTree.size + asmTree.gotoCount + asmTree.doomedCount + 1)
      asmTree).2 = true := by
  have hwf : WfTree asmTree := by
    constructor
    · decide
    · intro x hx hxop
      rw [show asmTree.subItems =
        [asmTree, Item.node { id := 1, op := .cit_asm } []] from rfl] at hx
      rcases List.mem_cons.mp hx with rfl | hx
      · cases hxop
      · simp at hx
        subst hx
        cases hxop
  exact ⟨hwf, (c8_loops_terminate (fun s => s) asmTree [] [] 5 hwf).1,
    (c8_loops_terminate (fun s => s) asmTree [] [] 5 hwf).2⟩
